import Mathlib

/-!
Verification of the nutexb texture container codec and its block-linear
swizzle engine, by a shallow embedding of the Rust sources.

Buffers (`Vec<u8>`) are modelled as `List Nat`; machine integers (`u32`,
`usize`) are modelled as `Nat`, with an explicit `% 2 ^ 32` wherever the
source performs an `as u32` cast.  Fallible operations return `Option`.
-/

set_option linter.unusedVariables false

namespace Nutexb

/-- `div_round_up` from `src/tegra_swizzle.rs`: `(n + d - 1) / d`. -/
def div_round_up (n d : Nat) : Nat := (n + d - 1) / d

/-- `round_up` from `src/tegra_swizzle.rs`: `((x - 1) | (y - 1)) + 1`.
In the sources it is only ever applied with `x ≥ 1`, so `Nat` truncated
subtraction agrees with the `u32` arithmetic of the original. -/
def round_up (x y : Nat) : Nat := ((x - 1) ||| (y - 1)) + 1

/-- The `NutexbFormat` enumeration from `nutexb/src/lib.rs`. -/
inductive NutexbFormat where
  | R8Unorm
  | R8G8B8A8Unorm
  | R8G8B8A8Srgb
  | R32G32B32A32Float
  | B8G8R8A8Unorm
  | B8G8R8A8Srgb
  | BC1Unorm
  | BC1Srgb
  | BC2Unorm
  | BC2Srgb
  | BC3Unorm
  | BC3Srgb
  | BC4Unorm
  | BC4Snorm
  | BC5Unorm
  | BC5Snorm
  | BC6Ufloat
  | BC6Sfloat
  | BC7Unorm
  | BC7Srgb
  deriving DecidableEq, Repr

/-- The `u32` discriminant of each format (`#[brw(repr(u32))]`). -/
def NutexbFormat.code : NutexbFormat → Nat
  | .R8Unorm => 0x0100
  | .R8G8B8A8Unorm => 0x0400
  | .R8G8B8A8Srgb => 0x0405
  | .R32G32B32A32Float => 0x0434
  | .B8G8R8A8Unorm => 0x0450
  | .B8G8R8A8Srgb => 0x0455
  | .BC1Unorm => 0x0480
  | .BC1Srgb => 0x0485
  | .BC2Unorm => 0x0490
  | .BC2Srgb => 0x0495
  | .BC3Unorm => 0x04a0
  | .BC3Srgb => 0x04a5
  | .BC4Unorm => 0x0180
  | .BC4Snorm => 0x0185
  | .BC5Unorm => 0x0280
  | .BC5Snorm => 0x0285
  | .BC6Ufloat => 0x04d7
  | .BC6Sfloat => 0x04d8
  | .BC7Unorm => 0x04e0
  | .BC7Srgb => 0x04e5

/-- Decoding a `u32` discriminant back into a format; any other code is a
parse error in `binrw` (`repr(u32)` enums reject unknown values). -/
def NutexbFormat.fromCode (n : Nat) : Option NutexbFormat :=
  if n = 0x0100 then some .R8Unorm
  else if n = 0x0400 then some .R8G8B8A8Unorm
  else if n = 0x0405 then some .R8G8B8A8Srgb
  else if n = 0x0434 then some .R32G32B32A32Float
  else if n = 0x0450 then some .B8G8R8A8Unorm
  else if n = 0x0455 then some .B8G8R8A8Srgb
  else if n = 0x0480 then some .BC1Unorm
  else if n = 0x0485 then some .BC1Srgb
  else if n = 0x0490 then some .BC2Unorm
  else if n = 0x0495 then some .BC2Srgb
  else if n = 0x04a0 then some .BC3Unorm
  else if n = 0x04a5 then some .BC3Srgb
  else if n = 0x0180 then some .BC4Unorm
  else if n = 0x0185 then some .BC4Snorm
  else if n = 0x0280 then some .BC5Unorm
  else if n = 0x0285 then some .BC5Snorm
  else if n = 0x04d7 then some .BC6Ufloat
  else if n = 0x04d8 then some .BC6Sfloat
  else if n = 0x04e0 then some .BC7Unorm
  else if n = 0x04e5 then some .BC7Srgb
  else none

/-- `NutexbFormat::bytes_per_pixel` from `nutexb/src/lib.rs`. -/
def NutexbFormat.bytes_per_pixel : NutexbFormat → Nat
  | .R8G8B8A8Unorm | .R8G8B8A8Srgb | .B8G8R8A8Unorm | .B8G8R8A8Srgb => 4
  | .R32G32B32A32Float => 16
  | .BC1Unorm | .BC1Srgb => 8
  | .BC2Unorm | .BC2Srgb => 16
  | .BC3Unorm | .BC3Srgb => 16
  | .BC4Unorm | .BC4Snorm => 8
  | .BC5Unorm | .BC5Snorm => 16
  | .BC6Ufloat | .BC6Sfloat => 16
  | .BC7Unorm | .BC7Srgb => 16
  | .R8Unorm => 1

/-- `NutexbFormat::block_width` from `nutexb/src/lib.rs`. -/
def NutexbFormat.block_width : NutexbFormat → Nat
  | .R8Unorm | .R8G8B8A8Unorm | .R8G8B8A8Srgb
  | .R32G32B32A32Float | .B8G8R8A8Unorm | .B8G8R8A8Srgb => 1
  | _ => 4

/-- `NutexbFormat::block_height`: all known nutexb formats use square blocks. -/
def NutexbFormat.block_height (f : NutexbFormat) : Nat := f.block_width

/-- `NutexbFormat::block_depth`: all known nutexb formats use 2D blocks. -/
def NutexbFormat.block_depth (_f : NutexbFormat) : Nat := 1

/-- `get_addr_block_linear` from `src/tegra_swizzle.rs`. -/
def get_addr_block_linear (x y width bytes_per_pixel base_address block_height : Nat) :
    Nat :=
  let image_width_in_gobs := div_round_up (width * bytes_per_pixel) 64
  let gob_address := base_address
    + (y / (8 * block_height)) * 512 * block_height * image_width_in_gobs
    + (x * bytes_per_pixel / 64) * 512 * block_height
    + (y % (8 * block_height) / 8) * 512
  let x := x * bytes_per_pixel
  gob_address
    + ((x % 64) / 32) * 256
    + ((y % 8) / 2) * 64
    + ((x % 32) / 16) * 32
    + (y % 2) * 16
    + (x % 16)

/-- Byte-wise model of `result[pos..pos+n].copy_from_slice(&src[srcPos..srcPos+n])`.
Out-of-range destination writes are dropped by `List.set`; in the source they
would panic, and every use below is proved in bounds. -/
def writeBytes (dst : List Nat) (pos : Nat) (src : List Nat) (srcPos : Nat) : Nat → List Nat
  | 0 => dst
  | n+1 => writeBytes (dst.set pos (src.getD srcPos 0)) (pos+1) src (srcPos+1) n

/-- The row-major iteration order of the nested `for y in 0..height
{ for x in 0..width { .. } }` loop of `_swizzle`. -/
def coordList (height width : Nat) : List (Nat × Nat) :=
  (List.range height).flatMap (fun y => (List.range width).map (fun x => (y, x)))

/-- `_swizzle` from `src/tegra_swizzle.rs`, the shared kernel of `swizzle`
and `deswizzle`: copies `bytes_per_pixel`-sized chunks between a row-major
buffer and the block-linear (or, for `tile_mode == 1`, pitch-linear) layout,
skipping chunks whose tiled offset falls outside the allocated surface. -/
def _swizzle (width height _depth blk_width blk_height _blk_depth : Nat)
    (round_pitch : Bool) (bpp tile_mode block_height_log_2 : Nat)
    (data : List Nat) (to_swizzle : Bool) : List Nat :=
  let block_height := 1 <<< block_height_log_2
  let width := div_round_up width blk_width
  let height := div_round_up height blk_height
  let pitch := if tile_mode = 1 then
      (if round_pitch then round_up (width * bpp) 32 else width * bpp)
    else round_up (width * bpp) 64
  let surf_size := if tile_mode = 1 then pitch * height
    else pitch * round_up height (block_height * 8)
  (coordList height width).foldl (fun result yx =>
    let pos := if tile_mode = 1 then yx.1 * pitch + yx.2 * bpp
      else get_addr_block_linear yx.2 yx.1 width bpp 0 block_height
    let pos_ := (yx.1 * width + yx.2) * bpp
    if pos + bpp ≤ surf_size then
      if to_swizzle then writeBytes result pos data pos_ bpp
      else writeBytes result pos_ data pos bpp
    else result)
    (List.replicate surf_size 0)

/-- The write loop of `_swizzle`, abstracted over the destination and source
address maps `f` and `g` of the two copy directions.  The skip guard of the
source always tests the block-linear offset `gd c` (which is `f c` when
swizzling and `g c` when deswizzling). -/
def writeFold (f g gd : Nat × Nat → Nat) (bpp surfSize : Nat) (data : List Nat)
    (ops : List (Nat × Nat)) (init : List Nat) : List Nat :=
  ops.foldl (fun result c =>
    if gd c + bpp ≤ surfSize then writeBytes result (f c) data (g c) bpp else result) init

/-- Modelled from the spec: the per-surface block height (`tegra_swizzle`'s
`block_height_mip0`, not part of this repository's sources).  §4.3: "a
power-of-two parameter chosen once for the base mip level from the total
surface height (larger surfaces get taller blocks, up to a fixed maximum)";
the glossary fixes the maximum at 16 GOBs.  Returned as a base-2 logarithm,
which is what `_swizzle` consumes. -/
def blockHeightLog2ForRows (rows : Nat) : Nat :=
  if rows ≤ 8 then 0
  else if rows ≤ 16 then 1
  else if rows ≤ 32 then 2
  else if rows ≤ 64 then 3
  else 4

/-- Modelled from the spec: base-mip block height from the surface height in
block rows (`tegra_swizzle::block_height_mip0`, missing from the sources). -/
def block_height_mip0 (heightInBlocks : Nat) : Nat :=
  blockHeightLog2ForRows heightInBlocks

/-- Modelled from the spec: §4.3 "a given mip's effective block height is the
smallest value that still covers the mip's row count, never exceeding the
base block height" (`tegra_swizzle::mip_block_height`, missing from the
sources). -/
def mip_block_height (mipHeightInBlocks bh0Log2 : Nat) : Nat :=
  min (blockHeightLog2ForRows mipHeightInBlocks) bh0Log2

/-- Mip level dimension: halve `mip` times, never reaching zero. -/
def mip_dim (d mip : Nat) : Nat := max (d >>> mip) 1

/-- Pixel dimensions and block height of one 2-D slice of the surface. -/
structure SliceDims where
  pixW : Nat
  pixH : Nat
  bhLog2 : Nat
  deriving DecidableEq, Repr

/-- Linear (row-major, unpadded) byte size of a slice. -/
def sliceLin (blkW blkH bpp : Nat) (s : SliceDims) : Nat :=
  div_round_up s.pixW blkW * div_round_up s.pixH blkH * bpp

/-- Padded block-linear byte size of a slice, as allocated by `_swizzle`. -/
def slicePadded (blkW blkH bpp : Nat) (s : SliceDims) : Nat :=
  round_up (div_round_up s.pixW blkW * bpp) 64
    * round_up (div_round_up s.pixH blkH) ((1 <<< s.bhLog2) * 8)

/-- Modelled from the spec: the depth slices of one mip level.  §4.3 gives
only the 2-D address function, so a 3-D mip is laid out as `mip_depth`
independent 2-D slices. -/
def mipSlices (width height depth blkH blkD mip bh0 : Nat) : List SliceDims :=
  List.replicate (div_round_up (mip_dim depth mip) blkD)
    ⟨mip_dim width mip, mip_dim height mip,
      mip_block_height (div_round_up (mip_dim height mip) blkH) bh0⟩

/-- Modelled from the spec: §4.3 "each mip's tiled bytes are appended to the
output in mip-ascending order; this sequence is repeated once per array
layer, in layer-ascending order". -/
def surfaceSlices (width height depth blkH blkD mips layers : Nat) : List SliceDims :=
  (List.range layers).flatMap (fun _ =>
    (List.range mips).flatMap (fun m =>
      mipSlices width height depth blkH blkD m
        (block_height_mip0 (div_round_up height blkH))))

/-- Modelled from the spec: total linear surface size
(`tegra_swizzle::surface::deswizzled_surface_size`, missing from the
sources): the sum of the unpadded mip sizes over every layer. -/
def deswizzled_surface_size (width height depth blkW blkH blkD bpp mips layers : Nat) : Nat :=
  ((surfaceSlices width height depth blkH blkD mips layers).map
    (sliceLin blkW blkH bpp)).sum

/-- Modelled from the spec: total padded tiled surface size
(`tegra_swizzle::surface::swizzled_surface_size`, missing from the
sources): the sum of the padded mip sizes over every layer. -/
def swizzled_surface_size (width height depth blkW blkH blkD bpp mips layers : Nat) : Nat :=
  ((surfaceSlices width height depth blkH blkD mips layers).map
    (slicePadded blkW blkH bpp)).sum

/-- The tiled bytes of a list of slices: each slice's linear segment is
transformed independently and the results are concatenated. -/
def swizzleSegments (blkW blkH blkD bpp : Nat) : List SliceDims → List Nat → List Nat
  | [], _ => []
  | s :: rest, d =>
      _swizzle s.pixW s.pixH 1 blkW blkH blkD false bpp 0 s.bhLog2
          (d.take (sliceLin blkW blkH bpp s)) true
        ++ swizzleSegments blkW blkH blkD bpp rest (d.drop (sliceLin blkW blkH bpp s))

/-- The linear bytes of a list of slices: each slice's padded tiled segment is
transformed back and cut to its logical size, then concatenated. -/
def deswizzleSegments (blkW blkH blkD bpp : Nat) : List SliceDims → List Nat → List Nat
  | [], _ => []
  | s :: rest, d =>
      (_swizzle s.pixW s.pixH 1 blkW blkH blkD false bpp 0 s.bhLog2
          (d.take (slicePadded blkW blkH bpp s)) false).take (sliceLin blkW blkH bpp s)
        ++ deswizzleSegments blkW blkH blkD bpp rest (d.drop (slicePadded blkW blkH bpp s))

/-- Modelled from the spec: `tegra_swizzle::surface::swizzle_surface`
(missing from the sources).  §4.3: fails with a size-mismatch error when the
linear buffer is shorter than the byte length implied by the parameters. -/
def swizzle_surface (width height depth : Nat) (data : List Nat)
    (blkW blkH blkD bpp mips layers : Nat) : Option (List Nat) :=
  if data.length < deswizzled_surface_size width height depth blkW blkH blkD bpp mips layers
  then none
  else some (swizzleSegments blkW blkH blkD bpp
    (surfaceSlices width height depth blkH blkD mips layers) data)

/-- Modelled from the spec: `tegra_swizzle::surface::deswizzle_surface`
(missing from the sources).  §4.3: fails with a size-mismatch error when the
tiled buffer is shorter than the minimum padded size the parameters imply;
the output has exactly the logical (linear) size (§8, Scenario A). -/
def deswizzle_surface (width height depth : Nat) (data : List Nat)
    (blkW blkH blkD bpp mips layers : Nat) : Option (List Nat) :=
  if data.length < swizzled_surface_size width height depth blkW blkH blkD bpp mips layers
  then none
  else some (deswizzleSegments blkW blkH blkD bpp
    (surfaceSlices width height depth blkH blkD mips layers) data)

/-- `LayerMipmaps` from `nutexb/src/lib.rs`. -/
structure LayerMipmaps where
  mipmap_sizes : List Nat
  deriving DecidableEq, Repr

/-- `NutexbFooter` from `nutexb/src/lib.rs`.  The name is kept as its raw
bytes (`NullString` wraps the bytes before the terminator); all `u32`
fields are `Nat`s bounded by `2 ^ 32` in the Rust source's types. -/
structure NutexbFooter where
  string : List Nat
  width : Nat
  height : Nat
  depth : Nat
  image_format : NutexbFormat
  unk2 : Nat
  mipmap_count : Nat
  unk3 : Nat
  layer_count : Nat
  data_size : Nat
  version : Nat × Nat
  deriving DecidableEq, Repr

/-- `NutexbFile` from `nutexb/src/lib.rs`. -/
structure NutexbFile where
  data : List Nat
  layer_mipmaps : List LayerMipmaps
  footer : NutexbFooter
  deriving DecidableEq, Repr

/-- The `Surface` input abstraction of the encode path (the accessors of
`nutexb/src/convert.rs`'s `ToNutexb`, as a record). -/
structure Surface where
  width : Nat
  height : Nat
  depth : Nat
  image_data : List Nat
  mipmap_count : Nat
  layer_count : Nat
  image_format : NutexbFormat
  deriving DecidableEq, Repr

/-- `unk2` from `nutexb/src/convert.rs`. -/
def unk2 (depth layer_count : Nat) : Nat :=
  if depth > 1 then 8
  else if layer_count > 1 then 9
  else 4

/-- `calculate_layer_mip_sizes` from `nutexb/src/convert.rs`.  The final
`as u32` cast is the `% 2 ^ 32`. -/
def calculate_layer_mip_sizes (width height depth blkW blkH blkD bytes_per_pixel
    mip_count layer_count : Nat) : List LayerMipmaps :=
  List.replicate layer_count
    ⟨(List.range mip_count).map (fun mip =>
      (max (max (div_round_up (width >>> mip) blkW) 1
        * max (div_round_up (height >>> mip) blkH) 1
        * max (div_round_up (depth >>> mip) blkD) 1
        * bytes_per_pixel) bytes_per_pixel) % 2 ^ 32)⟩

/-- `swizzle_data` from `src/surface.rs`: combines all the mipmaps and
arrays into one contiguous tiled region via `swizzle_surface`. -/
def swizzle_data (width height depth blkW blkH blkD bytes_per_pixel : Nat)
    (data : List Nat) (mipmap_count array_count : Nat) : Option (List Nat) :=
  swizzle_surface width height depth data blkW blkH blkD bytes_per_pixel
    mipmap_count array_count

/-- `deswizzle_data` from `src/surface.rs`. -/
def deswizzle_data (width height depth blkW blkH blkD bytes_per_pixel : Nat)
    (data : List Nat) (mipmap_count array_count : Nat) : Option (List Nat) :=
  deswizzle_surface width height depth data blkW blkH blkD bytes_per_pixel
    mipmap_count array_count

/-- `create_nutexb` from `nutexb/src/convert.rs`. -/
def create_nutexb (image : Surface) (name : List Nat) : Option NutexbFile :=
  let layer_mipmaps := calculate_layer_mip_sizes image.width image.height image.depth
    image.image_format.block_width image.image_format.block_height
    image.image_format.block_depth image.image_format.bytes_per_pixel
    image.mipmap_count image.layer_count
  match swizzle_data image.width image.height image.depth
      image.image_format.block_width image.image_format.block_height
      image.image_format.block_depth image.image_format.bytes_per_pixel
      image.image_data image.mipmap_count image.layer_count with
  | none => none
  | some data => some
    { data := data
      layer_mipmaps := layer_mipmaps
      footer :=
        { string := name
          width := image.width
          height := image.height
          depth := image.depth
          image_format := image.image_format
          unk2 := unk2 image.depth image.layer_count
          mipmap_count := image.mipmap_count
          unk3 := 0x1000
          layer_count := image.layer_count
          data_size := data.length % 2 ^ 32
          version := (1, 2) } }

/-- `create_nutexb_unswizzled` from `nutexb/src/convert.rs`. -/
def create_nutexb_unswizzled (image : Surface) (name : List Nat) : NutexbFile :=
  { data := image.image_data
    layer_mipmaps := calculate_layer_mip_sizes image.width image.height image.depth
      image.image_format.block_width image.image_format.block_height
      image.image_format.block_depth image.image_format.bytes_per_pixel 1 1
    footer :=
      { string := name
        width := image.width
        height := image.height
        depth := image.depth
        image_format := image.image_format
        unk2 := 2
        mipmap_count := 1
        unk3 := 0
        layer_count := 1
        data_size := image.image_data.length % 2 ^ 32
        version := (2, 0) } }

/-- `Vec::resize(new_len, 0)`: truncate or zero-pad. -/
def listResize (l : List Nat) (n : Nat) : List Nat :=
  l.take n ++ List.replicate (n - l.length) 0

/-- The `new_len` computation of `NutexbFile::optimize_size`: padded tiled
size when the swizzle flag `unk3` is `0x1000`, linear size otherwise. -/
def expected_size (ft : NutexbFooter) : Nat :=
  if ft.unk3 = 0x1000 then
    swizzled_surface_size ft.width ft.height ft.depth
      ft.image_format.block_width ft.image_format.block_height
      ft.image_format.block_depth ft.image_format.bytes_per_pixel
      ft.mipmap_count ft.layer_count
  else
    deswizzled_surface_size ft.width ft.height ft.depth
      ft.image_format.block_width ft.image_format.block_height
      ft.image_format.block_depth ft.image_format.bytes_per_pixel
      ft.mipmap_count ft.layer_count

/-- `NutexbFile::optimize_size` from `nutexb/src/lib.rs`. -/
def NutexbFile.optimize_size (f : NutexbFile) : NutexbFile :=
  let new_len := expected_size f.footer
  { f with
    data := listResize f.data new_len
    footer := { f.footer with data_size := (listResize f.data new_len).length % 2 ^ 32 } }

/-- `NutexbFile::deswizzled_data` from `nutexb/src/lib.rs`. -/
def NutexbFile.deswizzled_data (f : NutexbFile) : Option (List Nat) :=
  deswizzle_surface f.footer.width f.footer.height f.footer.depth f.data
    f.footer.image_format.block_width f.footer.image_format.block_height
    f.footer.image_format.block_depth f.footer.image_format.bytes_per_pixel
    f.footer.mipmap_count f.footer.layer_count

/-! Byte-level serialization (`BinWrite` derive) and the custom
`BinRead::read_options` parser of `NutexbFile`.  All multi-byte fields are
little-endian. -/

def u16le (v : Nat) : List Nat := [v % 256, v / 256 % 256]

def u32le (v : Nat) : List Nat :=
  [v % 256, v / 256 % 256, v / 65536 % 256, v / 16777216 % 256]

def magicXNT : List Nat := [0x20, 0x58, 0x4E, 0x54]

def magicXET : List Nat := [0x20, 0x58, 0x45, 0x54]

/-- The 64-byte name field: `NullString` writes the bytes plus a null
terminator, and `pad_size_to = 0x40` appends zeros up to 64 bytes.
`binrw` never truncates: a name of 64 bytes or more overflows the field. -/
def nameFieldBytes (s : List Nat) : List Nat :=
  s ++ [0] ++ List.replicate (64 - (s.length + 1)) 0

/-- Serialization of `NutexbFooter` (derived `BinWrite` with the two magic
sequences). -/
def footerBytes (f : NutexbFooter) : List Nat :=
  magicXNT ++ nameFieldBytes f.string ++ u32le f.width ++ u32le f.height
    ++ u32le f.depth ++ u32le f.image_format.code ++ u32le f.unk2
    ++ u32le f.mipmap_count ++ u32le f.unk3 ++ u32le f.layer_count
    ++ u32le f.data_size ++ magicXET ++ u16le f.version.1 ++ u16le f.version.2

/-- Serialization of one `LayerMipmaps` record (`u32` sizes, zero-padded to
64 bytes; `binrw` does not truncate an overfull record). -/
def layerMipmapsBytes (t : LayerMipmaps) : List Nat :=
  t.mipmap_sizes.flatMap u32le ++ List.replicate (64 - 4 * t.mipmap_sizes.length) 0

/-- `NutexbFile::write`: data, then the per-layer mip tables, then the
footer. -/
def writeNutexb (f : NutexbFile) : List Nat :=
  f.data ++ f.layer_mipmaps.flatMap layerMipmapsBytes ++ footerBytes f.footer

/-- Read a little-endian `u32`; reading past the end of the stream is an
error. -/
def readU32 (s : List Nat) (pos : Nat) : Option Nat :=
  if pos + 4 ≤ s.length then
    some (s.getD pos 0 + 256 * s.getD (pos + 1) 0
      + 65536 * s.getD (pos + 2) 0 + 16777216 * s.getD (pos + 3) 0)
  else none

/-- Read a little-endian `u16`; reading past the end of the stream is an
error. -/
def readU16 (s : List Nat) (pos : Nat) : Option Nat :=
  if pos + 2 ≤ s.length then some (s.getD pos 0 + 256 * s.getD (pos + 1) 0)
  else none

/-- Parser for `NutexbFooter` on the 112-byte suffix of the stream: the
magic, the null-terminated name (reading until a null byte, EOF being an
error, then seeking to the end of the fixed 64-byte field), nine `u32`
fields, the second magic and the version. -/
def readU32List (s : List Nat) : Nat → Nat → Option (List Nat)
  | _, 0 => some []
  | pos, n + 1 => do
    let v ← readU32 s pos
    let rest ← readU32List s (pos + 4) n
    pure (v :: rest)

/-- The nine consecutive `u32` footer fields at offsets `68..104`, already
bounds-checked, assembled into the footer record. -/
def mkFooter (name : List Nat) (fmt : NutexbFormat) (vals : List Nat)
    (v1 v2 : Nat) : Option NutexbFooter :=
  match vals with
  | [width, height, depth, _fmtCode, unk2v, mipCount, unk3v, layerCount, dataSize] =>
    some
      { string := name
        width := width
        height := height
        depth := depth
        image_format := fmt
        unk2 := unk2v
        mipmap_count := mipCount
        unk3 := unk3v
        layer_count := layerCount
        data_size := dataSize
        version := (v1, v2) }
  | _ => none

def parseFooter (t : List Nat) : Option NutexbFooter := do
  guard (t.take 4 = magicXNT)
  let i ← (t.drop 4).findIdx? (fun b => b == 0)
  let name := (t.drop 4).take i
  let vals ← readU32List t 68 9
  let fmt ← NutexbFormat.fromCode (vals.getD 3 0)
  guard ((t.drop 104).take 4 = magicXET)
  let v1 ← readU16 t 108
  let v2 ← readU16 t 110
  mkFooter name fmt vals v1 v2

/-- Parser for the `layer_count` fixed-64-byte `LayerMipmaps` records
starting at `pos`: each reads `mipCount` `u32`s and then seeks to the end
of its 64-byte record (`pad_size_to = 0x40`). -/
def parseTables (s : List Nat) (mipCount : Nat) : Nat → Nat → Option (List LayerMipmaps)
  | 0, _ => some []
  | n + 1, pos => do
    let sizes ← readU32List s pos mipCount
    let rest ← parseTables s mipCount n (pos + 64)
    pure (⟨sizes⟩ :: rest)

/-- `NutexbFile`'s custom `BinRead::read_options`: seek to `end - 112` and
parse the footer (an out-of-range seek on a stream shorter than 112 bytes
is an error), seek back across footer and tables (an error when that
position would be negative), parse the tables, and read everything before
them as `data`.  The footer's `data_size` plays no role. -/
def parseNutexb (s : List Nat) : Option NutexbFile :=
  if s.length < 112 then none
  else match parseFooter (s.drop (s.length - 112)) with
  | none => none
  | some footer =>
    if s.length < 112 + 64 * footer.layer_count then none
    else match parseTables (s.drop (s.length - 112 - 64 * footer.layer_count))
        footer.mipmap_count footer.layer_count 0 with
    | none => none
    | some tables =>
      some ⟨s.take (s.length - 112 - 64 * footer.layer_count), tables, footer⟩

/-! Concrete sample inputs used by the witness theorems. -/

def sampleSurface : Surface :=
  { width := 1, height := 1, depth := 1, image_data := [7], mipmap_count := 1,
    layer_count := 1, image_format := .R8Unorm }

def sampleFile : NutexbFile :=
  { data := []
    layer_mipmaps := [⟨[0]⟩]
    footer :=
      { string := [97], width := 1, height := 1, depth := 1,
        image_format := .R8Unorm, unk2 := 4, mipmap_count := 1, unk3 := 0,
        layer_count := 1, data_size := 0, version := (1, 2) } }

/-- A 67-byte name that begins with the bytes of the footer magic `" XNT"`. -/
def longMagicName : List Nat := [0x20, 0x58, 0x4E, 0x54] ++ List.replicate 63 97

/-- A concrete, otherwise well-formed file carrying the oversized name. -/
def longNameFile : NutexbFile :=
  { data := []
    layer_mipmaps := [⟨[16]⟩]
    footer :=
      { string := longMagicName, width := 4, height := 4, depth := 1,
        image_format := .R8G8B8A8Unorm, unk2 := 4, mipmap_count := 1, unk3 := 0,
        layer_count := 1, data_size := 0, version := (1, 2) } }

/-- A concrete file with a 63-byte name. -/
def name63File : NutexbFile :=
  { data := []
    layer_mipmaps := [⟨[0]⟩]
    footer :=
      { string := List.replicate 63 97, width := 1, height := 1, depth := 1,
        image_format := .R8Unorm, unk2 := 4, mipmap_count := 1, unk3 := 0,
        layer_count := 1, data_size := 0, version := (1, 2) } }

/-- Bitmask view of `a ||| (2 ^ k - 1)`: the low `k` bits are forced to one
and the high bits are kept. -/
theorem lor_mask (a : Nat) : ∀ k, a ||| (2 ^ k - 1) = 2 ^ k * (a / 2 ^ k) + (2 ^ k - 1) := by
  induction a using Nat.strong_induction_on with
  | _ a ih => ?_
  intro k
  cases k with
  | zero => simp
  | succ k =>
    have hp : 0 < (2:Nat) ^ k := Nat.two_pow_pos k
    have h4 : (2:Nat) ^ (k+1) = 2 * 2 ^ k := by rw [pow_succ, Nat.mul_comm]
    have hmod : (a ||| (2 ^ (k+1) - 1)) % 2 = 1 := by
      rw [Nat.or_mod_two_eq_one]
      right
      omega
    have hhalf : (2 ^ (k+1) - 1) / 2 = 2 ^ k - 1 := by omega
    have hdiv : (a ||| (2 ^ (k+1) - 1)) / 2 = (a / 2) ||| (2 ^ k - 1) := by
      rw [Nat.or_div_two, hhalf]
    have h2 : a ||| (2 ^ (k+1) - 1)
        = 2 * ((a ||| (2 ^ (k+1) - 1)) / 2) + (a ||| (2 ^ (k+1) - 1)) % 2 := by
      omega
    rw [h2, hmod, hdiv]
    rcases Nat.eq_zero_or_pos a with ha | ha
    · subst ha; simp [Nat.zero_or]; omega
    · rw [ih (a / 2) (Nat.div_lt_self ha (by omega)) k]
      have h3 : a / 2 / 2 ^ k = a / 2 ^ (k+1) := by
        rw [Nat.div_div_eq_div_mul, pow_succ, Nat.mul_comm]
      rw [h3]
      have h5 : 2 ^ (k+1) * (a / 2 ^ (k+1)) = 2 * (2 ^ k * (a / 2 ^ (k+1))) := by
        rw [h4, Nat.mul_assoc]
      omega

/-- For positive `x`, rounding up to a power-of-two multiple agrees with
ceiling division: `round_up x (2 ^ k) = 2 ^ k * div_round_up x (2 ^ k)`. -/
theorem round_up_pow2 (x k : Nat) (hx : 0 < x) :
    round_up x (2 ^ k) = 2 ^ k * div_round_up x (2 ^ k) := by
  have hp : 0 < (2:Nat) ^ k := Nat.two_pow_pos k
  unfold round_up div_round_up
  rw [lor_mask]
  have h1 : (x + 2 ^ k - 1) / 2 ^ k = (x - 1) / 2 ^ k + 1 := by
    have : x + 2 ^ k - 1 = (x - 1) + 1 * 2 ^ k := by omega
    rw [this, Nat.add_mul_div_right _ _ hp]
  rw [h1]
  have := Nat.two_pow_pos k
  ring_nf
  omega

/-- `div_round_up` is ceiling division: `n ≤ d * div_round_up n d`. -/
theorem le_mul_div_round_up (n d : Nat) (hd : 0 < d) : n ≤ d * div_round_up n d := by
  unfold div_round_up
  rcases Nat.eq_zero_or_pos n with h | h
  · simp [h]
  · have h1 : (n + d - 1) / d = (n - 1) / d + 1 := by
      have : n + d - 1 = (n - 1) + 1 * d := by omega
      rw [this, Nat.add_mul_div_right _ _ hd]
    rw [h1]
    have h2 := Nat.div_add_mod (n - 1) d
    have h3 := Nat.mod_lt (n - 1) hd
    have h4 : d * ((n-1)/d + 1) = d * ((n-1)/d) + d := by ring
    omega

/-- Strict upper bound for ceiling division: if `a < n` then `a / d < div_round_up n d`. -/
theorem div_lt_div_round_up (a n d : Nat) (hd : 0 < d) (h : a < n) :
    a / d < div_round_up n d := by
  have h1 : d * (a / d) ≤ a := by
    rw [Nat.mul_comm]
    exact Nat.div_mul_le_self a d
  have h2 := le_mul_div_round_up n d hd
  by_contra hc
  push_neg at hc
  have : d * div_round_up n d ≤ d * (a / d) := Nat.mul_le_mul_left d hc
  omega

theorem length_writeBytes (src : List Nat) :
    ∀ (n : Nat) (dst : List Nat) (pos srcPos : Nat),
    (writeBytes dst pos src srcPos n).length = dst.length := by
  intro n
  induction n with
  | zero => intro dst pos srcPos; rfl
  | succ n ih =>
    intro dst pos srcPos
    rw [writeBytes, ih, List.length_set]

theorem getD_writeBytes_outside (src : List Nat) :
    ∀ (n : Nat) (dst : List Nat) (pos srcPos j : Nat),
    (j < pos ∨ pos + n ≤ j) →
    (writeBytes dst pos src srcPos n).getD j 0 = dst.getD j 0 := by
  intro n
  induction n with
  | zero => intro dst pos srcPos j h; rfl
  | succ n ih =>
    intro dst pos srcPos j h
    rw [writeBytes, ih _ _ _ _ (by omega)]
    rw [List.getD_eq_getElem?_getD, List.getD_eq_getElem?_getD, List.getElem?_set]
    have : pos ≠ j := by omega
    simp [this]

theorem getD_writeBytes_inside (src : List Nat) :
    ∀ (n : Nat) (dst : List Nat) (pos srcPos b : Nat),
    b < n → pos + n ≤ dst.length →
    (writeBytes dst pos src srcPos n).getD (pos + b) 0 = src.getD (srcPos + b) 0 := by
  intro n
  induction n with
  | zero => intro dst pos srcPos b h; omega
  | succ n ih =>
    intro dst pos srcPos b hb hlen
    rw [writeBytes]
    cases b with
    | zero =>
      rw [Nat.add_zero]
      rw [getD_writeBytes_outside _ _ _ _ _ _ (by omega)]
      have hplt : pos < dst.length := by omega
      simp [List.getD_eq_getElem?_getD, List.getElem?_set, hplt]
    | succ b =>
      have h1 : pos + (b + 1) = (pos + 1) + b := by omega
      have h2 : srcPos + (b + 1) = (srcPos + 1) + b := by omega
      rw [h1, h2]
      exact ih _ _ _ _ (by omega) (by rw [List.length_set]; omega)

theorem mem_coordList (height width : Nat) (c : Nat × Nat) :
    c ∈ coordList height width ↔ c.1 < height ∧ c.2 < width := by
  unfold coordList
  rw [List.mem_flatMap]
  constructor
  · rintro ⟨y, hy, hc⟩
    rw [List.mem_map] at hc
    rcases hc with ⟨x, hx, rfl⟩
    rw [List.mem_range] at hy hx
    exact ⟨hy, hx⟩
  · rintro ⟨h1, h2⟩
    refine ⟨c.1, List.mem_range.mpr h1, List.mem_map.mpr ⟨c.2, List.mem_range.mpr h2, rfl⟩⟩

theorem length_writeFold (f g gd : Nat × Nat → Nat) (bpp surfSize : Nat) (data : List Nat) :
    ∀ (ops : List (Nat × Nat)) (init : List Nat),
    (writeFold f g gd bpp surfSize data ops init).length = init.length := by
  intro ops
  induction ops with
  | nil => intro init; rfl
  | cons c ops ih =>
    intro init
    rw [writeFold, List.foldl_cons, ← writeFold, ih]
    split
    · rw [length_writeBytes]
    · rfl

theorem getD_writeFold_outside (f g gd : Nat × Nat → Nat) (bpp surfSize : Nat)
    (data : List Nat) :
    ∀ (ops : List (Nat × Nat)) (init : List Nat) (j : Nat),
    (∀ c ∈ ops, j < f c ∨ f c + bpp ≤ j) →
    (writeFold f g gd bpp surfSize data ops init).getD j 0 = init.getD j 0 := by
  intro ops
  induction ops with
  | nil => intro init j h; rfl
  | cons c ops ih =>
    intro init j h
    rw [writeFold, List.foldl_cons, ← writeFold]
    rw [ih _ _ (fun c' hc' => h c' (List.mem_cons_of_mem _ hc'))]
    split
    · exact getD_writeBytes_outside _ _ _ _ _ _ (h c (List.mem_cons_self _ _))
    · rfl

/-- The value of a destination chunk after the write loop: if the chunk of
`c` is disjoint from every other chunk written, the bytes of `c`'s source
chunk land there, no matter in which order the loop visits `c`. -/
theorem getD_writeFold_chunk (f g gd : Nat × Nat → Nat) (bpp surfSize : Nat)
    (data : List Nat) (c : Nat × Nat) (b : Nat) (hb : b < bpp)
    (hguard : gd c + bpp ≤ surfSize) (hfin : f c + bpp ≤ surfSize) :
    ∀ (ops : List (Nat × Nat)) (init : List Nat),
    init.length = surfSize →
    (∀ c' ∈ ops, c' ≠ c → f c' + bpp ≤ f c ∨ f c + bpp ≤ f c') →
    (c ∈ ops ∨ init.getD (f c + b) 0 = data.getD (g c + b) 0) →
    (writeFold f g gd bpp surfSize data ops init).getD (f c + b) 0
      = data.getD (g c + b) 0 := by
  intro ops
  induction ops with
  | nil =>
    intro init hlen hdisj hmem
    rcases hmem with h | h
    · simp at h
    · exact h
  | cons c' ops ih =>
    intro init hlen hdisj hmem
    rw [writeFold, List.foldl_cons, ← writeFold]
    by_cases hc : c' = c
    · subst hc
      rw [if_pos hguard]
      apply ih
      · rw [length_writeBytes]; exact hlen
      · exact fun a ha => hdisj a (List.mem_cons_of_mem _ ha)
      · right
        exact getD_writeBytes_inside _ _ _ _ _ _ hb (by omega)
    · have hd := hdisj c' (List.mem_cons_self _ _) hc
      have hnext : ∀ init' : List Nat, init'.getD (f c + b) 0 = init.getD (f c + b) 0 →
          init'.length = surfSize →
          (writeFold f g gd bpp surfSize data ops init').getD (f c + b) 0
            = data.getD (g c + b) 0 := by
        intro init' heq hlen'
        apply ih init' hlen' (fun a ha => hdisj a (List.mem_cons_of_mem _ ha))
        rcases hmem with h | h
        · rcases List.mem_cons.mp h with h' | h'
          · exact absurd h'.symm hc
          · exact Or.inl h'
        · right; rw [heq]; exact h
      split
      · apply hnext
        · exact getD_writeBytes_outside _ _ _ _ _ _ (by omega)
        · rw [length_writeBytes]; exact hlen
      · exact hnext init rfl hlen

theorem mul_add_lt_cancel {M a b c d : Nat} (hM : 0 < M) (hb : b < M) (hd : d < M)
    (h : a * M + b = c * M + d) : a = c ∧ b = d := by
  have h1 : (a * M + b) / M = a := by
    rw [Nat.mul_comm a M, Nat.mul_add_div hM, Nat.div_eq_of_lt hb, Nat.add_zero]
  have h2 : (c * M + d) / M = c := by
    rw [Nat.mul_comm c M, Nat.mul_add_div hM, Nat.div_eq_of_lt hd, Nat.add_zero]
  have hac : a = c := by rw [← h1, ← h2, h]
  subst hac
  exact ⟨rfl, by omega⟩

/-- Decomposition of the block-linear address (with base address `0`) into a
GOB index and a within-GOB offset. -/
theorem addr_decompose (x y width bpp bh : Nat) :
    get_addr_block_linear x y width bpp 0 bh
      = (y / (8 * bh) * (bh * div_round_up (width * bpp) 64)
          + (x * bpp / 64 * bh + y % (8 * bh) / 8)) * 512
        + ((x * bpp % 64 / 32) * 256 + (y % 8 / 2) * 64
          + (x * bpp % 32 / 16) * 32 + (y % 2) * 16 + x * bpp % 16) := by
  unfold get_addr_block_linear
  ring

theorem inner_lt (wg bh C R : Nat) (hbh : 0 < bh) (hC : C < wg) (hR : R < bh) :
    C * bh + R < bh * wg := by
  have h1 : C * bh + R < (C + 1) * bh := by
    have : (C + 1) * bh = C * bh + bh := by ring
    omega
  have h2 : (C + 1) * bh ≤ wg * bh := Nat.mul_le_mul_right bh (by omega)
  have h3 : wg * bh = bh * wg := Nat.mul_comm _ _
  omega

/-- The three GOB-index components and the within-GOB offset can be read back
off the address: the representation is unique. -/
theorem gob_repr_inj (bh wg Q1 C1 R1 Q2 C2 R2 W1 W2 : Nat) (hbh : 0 < bh)
    (hC1 : C1 < wg) (hC2 : C2 < wg) (hR1 : R1 < bh) (hR2 : R2 < bh)
    (hW1 : W1 < 512) (hW2 : W2 < 512)
    (h : (Q1 * (bh * wg) + (C1 * bh + R1)) * 512 + W1
       = (Q2 * (bh * wg) + (C2 * bh + R2)) * 512 + W2) :
    Q1 = Q2 ∧ C1 = C2 ∧ R1 = R2 ∧ W1 = W2 := by
  obtain ⟨hA, hW⟩ := mul_add_lt_cancel (by omega) hW1 hW2 h
  have hM : 0 < bh * wg := by
    have : C1 * bh + R1 < bh * wg := inner_lt wg bh C1 R1 hbh hC1 hR1
    omega
  obtain ⟨hQ, hCR⟩ := mul_add_lt_cancel hM
    (inner_lt wg bh C1 R1 hbh hC1 hR1) (inner_lt wg bh C2 R2 hbh hC2 hR2) hA
  obtain ⟨hC, hR⟩ := mul_add_lt_cancel hbh hR1 hR2 hCR
  exact ⟨hQ, hC, hR, hW⟩

theorem within_lt_512 (X u : Nat) (hu : u < 8) :
    (X % 64 / 32) * 256 + (u / 2) * 64 + (X % 32 / 16) * 32 + (u % 2) * 16 + X % 16 < 512 := by
  omega

theorem mod_mul_div_lt (y B : Nat) (hB : 0 < B) : y % (8 * B) / 8 < B := by
  have := Nat.mod_lt y (show 0 < 8 * B by omega)
  omega

theorem within_digits_inj (X1 X2 u1 u2 : Nat) (hu1 : u1 < 8) (hu2 : u2 < 8)
    (h : (X1 % 64 / 32) * 256 + (u1 / 2) * 64 + (X1 % 32 / 16) * 32 + (u1 % 2) * 16 + X1 % 16
       = (X2 % 64 / 32) * 256 + (u2 / 2) * 64 + (X2 % 32 / 16) * 32 + (u2 % 2) * 16 + X2 % 16) :
    X1 % 64 = X2 % 64 ∧ u1 = u2 := by
  omega

theorem div_mod_recompose (X1 X2 : Nat) (hC : X1 / 64 = X2 / 64)
    (h64 : X1 % 64 = X2 % 64) : X1 = X2 := by
  omega

theorem y_recompose (B y1 y2 : Nat) (hB : 0 < B)
    (hQ : y1 / B = y2 / B) (hR : y1 % B / 8 = y2 % B / 8)
    (h8 : y1 % B % 8 = y2 % B % 8) : y1 = y2 := by
  have he1 := Nat.div_add_mod y1 B
  have he2 := Nat.div_add_mod y2 B
  have hq : B * (y1 / B) = B * (y2 / B) := by rw [hQ]
  generalize y1 % B = R1 at hR h8 he1
  generalize y2 % B = R2 at hR h8 he2
  omega

/-- The block-linear address map is injective on the logical coordinate
domain of the surface. -/
theorem addr_inj_xy (width bpp bh x1 y1 x2 y2 : Nat) (hbpp : 0 < bpp) (hbh : 0 < bh)
    (h1 : x1 < width) (h2 : x2 < width)
    (h : get_addr_block_linear x1 y1 width bpp 0 bh
       = get_addr_block_linear x2 y2 width bpp 0 bh) :
    x1 = x2 ∧ y1 = y2 := by
  have hxb1 : x1 * bpp < width * bpp := mul_lt_mul_of_pos_right h1 hbpp
  have hxb2 : x2 * bpp < width * bpp := mul_lt_mul_of_pos_right h2 hbpp
  have hC1 : x1 * bpp / 64 < div_round_up (width * bpp) 64 :=
    div_lt_div_round_up _ _ 64 (by omega) hxb1
  have hC2 : x2 * bpp / 64 < div_round_up (width * bpp) 64 :=
    div_lt_div_round_up _ _ 64 (by omega) hxb2
  have hR1 : y1 % (8 * bh) / 8 < bh := mod_mul_div_lt y1 bh hbh
  have hR2 : y2 % (8 * bh) / 8 < bh := mod_mul_div_lt y2 bh hbh
  have hm81 : y1 % (8 * bh) % 8 = y1 % 8 := Nat.mod_mod_of_dvd y1 ⟨bh, rfl⟩
  have hm82 : y2 % (8 * bh) % 8 = y2 % 8 := Nat.mod_mod_of_dvd y2 ⟨bh, rfl⟩
  have hm21 : y1 % 2 = y1 % 8 % 2 := (Nat.mod_mod_of_dvd y1 ⟨4, rfl⟩).symm
  have hm22 : y2 % 2 = y2 % 8 % 2 := (Nat.mod_mod_of_dvd y2 ⟨4, rfl⟩).symm
  rw [addr_decompose, addr_decompose, hm21, hm22] at h
  obtain ⟨hQ, hC, hR, hW⟩ := gob_repr_inj bh (div_round_up (width * bpp) 64)
    _ _ _ _ _ _ _ _ hbh hC1 hC2 hR1 hR2
    (within_lt_512 _ _ (Nat.mod_lt y1 (by decide)))
    (within_lt_512 _ _ (Nat.mod_lt y2 (by decide))) h
  clear h
  obtain ⟨hX64, hu⟩ := within_digits_inj (x1 * bpp) (x2 * bpp) (y1 % 8) (y2 % 8)
    (Nat.mod_lt y1 (by decide)) (Nat.mod_lt y2 (by decide)) hW
  refine ⟨Nat.eq_of_mul_eq_mul_right hbpp (div_mod_recompose _ _ hC hX64), ?_⟩
  exact y_recompose (8 * bh) y1 y2 (by omega) hQ hR (hm81.trans (hu.symm ▸ hm82.symm))

theorem mod16_add_bpp_le (X bpp : Nat) (hbpp : 0 < bpp) (hdvd : bpp ∣ 16) (hX : bpp ∣ X) :
    X % 16 + bpp ≤ 16 := by
  have hmod : bpp ∣ X % 16 := (Nat.dvd_mod_iff hdvd).mpr hX
  have hlt : X % 16 < 16 := Nat.mod_lt _ (by decide)
  rcases hmod with ⟨t, ht⟩
  rcases hdvd with ⟨s, hs⟩
  have hts : t < s := by
    by_contra hc
    push_neg at hc
    have : bpp * s ≤ bpp * t := Nat.mul_le_mul_left bpp hc
    omega
  have h2 : bpp * (t + 1) ≤ bpp * s := Nat.mul_le_mul_left bpp hts
  have h3 : bpp * (t + 1) = bpp * t + bpp := by ring
  omega

/-- Every block-linear address of a surface whose `bytes_per_pixel` divides 16
is `bytes_per_pixel`-aligned. -/
theorem dvd_addr (x y width bpp bh : Nat) (hdvd : bpp ∣ 16) :
    bpp ∣ get_addr_block_linear x y width bpp 0 bh := by
  rw [addr_decompose]
  have h512 : bpp ∣ 512 := hdvd.trans ⟨32, rfl⟩
  have h256 : bpp ∣ 256 := hdvd.trans ⟨16, rfl⟩
  have h64 : bpp ∣ 64 := hdvd.trans ⟨4, rfl⟩
  have h32 : bpp ∣ 32 := hdvd.trans ⟨2, rfl⟩
  have h16 : bpp ∣ x * bpp % 16 := (Nat.dvd_mod_iff hdvd).mpr (Dvd.intro_left x rfl)
  exact Nat.dvd_add (Dvd.dvd.mul_left h512 _)
    (Nat.dvd_add (Nat.dvd_add (Nat.dvd_add (Nat.dvd_add
      (Dvd.dvd.mul_left h256 _) (Dvd.dvd.mul_left h64 _))
      (Dvd.dvd.mul_left h32 _)) (Dvd.dvd.mul_left hdvd _)) h16)

theorem chunks_disjoint (a1 a2 bpp : Nat) (hne : a1 ≠ a2)
    (h1 : bpp ∣ a1) (h2 : bpp ∣ a2) : a1 + bpp ≤ a2 ∨ a2 + bpp ≤ a1 := by
  rcases h1 with ⟨t1, rfl⟩
  rcases h2 with ⟨t2, rfl⟩
  have hne' : t1 ≠ t2 := by
    intro h
    exact hne (by rw [h])
  rcases Nat.lt_or_ge t1 t2 with h | h
  · left
    have h2' : bpp * (t1 + 1) ≤ bpp * t2 := Nat.mul_le_mul_left bpp (by omega)
    have h3 : bpp * (t1 + 1) = bpp * t1 + bpp := by ring
    omega
  · right
    have h2' : bpp * (t2 + 1) ≤ bpp * t1 := Nat.mul_le_mul_left bpp (by omega)
    have h3 : bpp * (t2 + 1) = bpp * t2 + bpp := by ring
    omega

/-- The block-linear surface allocation, written as the product form used by
`_swizzle` (for tile modes other than `1`). -/
theorem surf_size_eq (wb hgt k : Nat) (hwb : 0 < wb) (hh : 0 < hgt) :
    round_up wb 64 * round_up hgt ((1 <<< k) * 8)
      = (64 * div_round_up wb 64)
        * (8 * (1 <<< k) * div_round_up hgt (8 * (1 <<< k))) := by
  have hsh : (1:Nat) <<< k = 2 ^ k := by rw [Nat.shiftLeft_eq, one_mul]
  have hp : (2:Nat) ^ (k + 3) = 2 ^ k * 8 := by
    rw [pow_add]
    norm_num
  have h1 : (1 <<< k) * 8 = 2 ^ (k + 3) := by rw [hsh, hp]
  have h2 : (8:Nat) * (1 <<< k) = 2 ^ (k + 3) := by rw [hsh, hp]; ring
  rw [h1, h2, show (64:Nat) = 2 ^ 6 by norm_num,
    round_up_pow2 wb 6 hwb, round_up_pow2 hgt (k + 3) hh]

/-- Every in-domain block-linear chunk lies inside the allocated surface. -/
theorem addr_add_bpp_le (width height bpp bh x y : Nat) (hbpp : 0 < bpp)
    (hdvd : bpp ∣ 16) (hbh : 0 < bh) (hx : x < width) (hy : y < height) :
    get_addr_block_linear x y width bpp 0 bh + bpp
      ≤ (64 * div_round_up (width * bpp) 64)
        * (8 * bh * div_round_up height (8 * bh)) := by
  have hxb : x * bpp < width * bpp := mul_lt_mul_of_pos_right hx hbpp
  have hC : x * bpp / 64 < div_round_up (width * bpp) 64 :=
    div_lt_div_round_up _ _ 64 (by omega) hxb
  have hR : y % (8 * bh) / 8 < bh := mod_mul_div_lt y bh hbh
  have hY : y / (8 * bh) < div_round_up height (8 * bh) :=
    div_lt_div_round_up _ _ (8 * bh) (by omega) hy
  have hinner := inner_lt (div_round_up (width * bpp) 64) bh _ _ hbh hC hR
  have h16 := mod16_add_bpp_le (x * bpp) bpp hbpp hdvd (Dvd.intro_left x rfl)
  have hW : (x * bpp % 64 / 32) * 256 + (y % 8 / 2) * 64
      + (x * bpp % 32 / 16) * 32 + (y % 2) * 16 + x * bpp % 16 + bpp ≤ 512 := by
    have hu : y % 8 < 8 := Nat.mod_lt _ (by decide)
    omega
  rw [addr_decompose]
  set wg := div_round_up (width * bpp) 64 with hwg
  set nr := div_round_up height (8 * bh) with hnr
  set Q := y / (8 * bh) with hQ
  set G := Q * (bh * wg) + (x * bpp / 64 * bh + y % (8 * bh) / 8) with hG
  have hGlt : G < nr * (bh * wg) := by
    have hstep : G < (Q + 1) * (bh * wg) := by
      have he : (Q + 1) * (bh * wg) = Q * (bh * wg) + bh * wg := by ring
      omega
    have hmono : (Q + 1) * (bh * wg) ≤ nr * (bh * wg) :=
      Nat.mul_le_mul_right _ (by omega)
    omega
  have hfin : (64 * wg) * (8 * bh * nr) = nr * (bh * wg) * 512 := by ring
  have hmul : (G + 1) * 512 ≤ nr * (bh * wg) * 512 :=
    Nat.mul_le_mul_right _ (by omega)
  have hexp : (G + 1) * 512 = G * 512 + 512 := by ring
  omega

/-- The logical (linear) extent of a slice is bounded by its block-linear
allocation. -/
theorem linear_size_le_surf (w h bpp bh : Nat) (hbh : 0 < bh) :
    w * h * bpp ≤ (64 * div_round_up (w * bpp) 64) * (8 * bh * div_round_up h (8 * bh)) := by
  have h1 : w * bpp ≤ 64 * div_round_up (w * bpp) 64 :=
    le_mul_div_round_up _ _ (by decide)
  have h2 : h ≤ 8 * bh * div_round_up h (8 * bh) := by
    have := le_mul_div_round_up h (8 * bh) (by omega)
    omega
  calc w * h * bpp = (w * bpp) * h := by ring
    _ ≤ (64 * div_round_up (w * bpp) 64) * (8 * bh * div_round_up h (8 * bh)) :=
        Nat.mul_le_mul h1 h2

/-- Row-major indices of distinct in-domain coordinates are distinct. -/
theorem rowmajor_inj (w y1 x1 y2 x2 : Nat) (hx1 : x1 < w) (hx2 : x2 < w)
    (h : y1 * w + x1 = y2 * w + x2) : y1 = y2 ∧ x1 = x2 :=
  mul_add_lt_cancel (by omega) hx1 hx2 h

/-- `_swizzle` in the block-linear direction `linear → tiled` is the write
loop over all coordinates with destination `get_addr_block_linear`. -/
theorem swizzle_as_writeFold (width height depth blkW blkH blkD : Nat) (rp : Bool)
    (bpp k : Nat) (data : List Nat) :
    _swizzle width height depth blkW blkH blkD rp bpp 0 k data true
      = writeFold
          (fun c => get_addr_block_linear c.2 c.1 (div_round_up width blkW) bpp 0 (1 <<< k))
          (fun c => (c.1 * div_round_up width blkW + c.2) * bpp)
          (fun c => get_addr_block_linear c.2 c.1 (div_round_up width blkW) bpp 0 (1 <<< k))
          bpp
          (round_up (div_round_up width blkW * bpp) 64
            * round_up (div_round_up height blkH) ((1 <<< k) * 8))
          data
          (coordList (div_round_up height blkH) (div_round_up width blkW))
          (List.replicate
            (round_up (div_round_up width blkW * bpp) 64
              * round_up (div_round_up height blkH) ((1 <<< k) * 8)) 0) := rfl

/-- `_swizzle` in the direction `tiled → linear` is the write loop with the
roles of the two address maps exchanged; the skip guard still tests the
block-linear offset. -/
theorem deswizzle_as_writeFold (width height depth blkW blkH blkD : Nat) (rp : Bool)
    (bpp k : Nat) (data : List Nat) :
    _swizzle width height depth blkW blkH blkD rp bpp 0 k data false
      = writeFold
          (fun c => (c.1 * div_round_up width blkW + c.2) * bpp)
          (fun c => get_addr_block_linear c.2 c.1 (div_round_up width blkW) bpp 0 (1 <<< k))
          (fun c => get_addr_block_linear c.2 c.1 (div_round_up width blkW) bpp 0 (1 <<< k))
          bpp
          (round_up (div_round_up width blkW * bpp) 64
            * round_up (div_round_up height blkH) ((1 <<< k) * 8))
          data
          (coordList (div_round_up height blkH) (div_round_up width blkW))
          (List.replicate
            (round_up (div_round_up width blkW * bpp) 64
              * round_up (div_round_up height blkH) ((1 <<< k) * 8)) 0) := rfl

theorem shiftLeft_one_pos (k : Nat) : 0 < 1 <<< k := by
  rw [Nat.shiftLeft_eq, one_mul]
  exact Nat.two_pow_pos k

/-- The output of `_swizzle` with tile mode `0` always has the padded
block-linear surface size, in both directions. -/
theorem length_swizzle (width height depth blkW blkH blkD : Nat) (rp : Bool)
    (bpp k : Nat) (data : List Nat) (dir : Bool) :
    (_swizzle width height depth blkW blkH blkD rp bpp 0 k data dir).length
      = round_up (div_round_up width blkW * bpp) 64
        * round_up (div_round_up height blkH) ((1 <<< k) * 8) := by
  cases dir
  · rw [deswizzle_as_writeFold, length_writeFold, List.length_replicate]
  · rw [swizzle_as_writeFold, length_writeFold, List.length_replicate]

/-- After swizzling, each logical chunk sits at its block-linear address. -/
theorem getD_swizzle_slice (width height depth blkW blkH blkD : Nat) (rp : Bool)
    (bpp k : Nat) (data : List Nat) (x y b : Nat)
    (hbpp : 0 < bpp) (hdvd : bpp ∣ 16)
    (hx : x < div_round_up width blkW) (hy : y < div_round_up height blkH) (hb : b < bpp) :
    (_swizzle width height depth blkW blkH blkD rp bpp 0 k data true).getD
        (get_addr_block_linear x y (div_round_up width blkW) bpp 0 (1 <<< k) + b) 0
      = data.getD ((y * div_round_up width blkW + x) * bpp + b) 0 := by
  rw [swizzle_as_writeFold]
  have hbh : 0 < 1 <<< k := shiftLeft_one_pos k
  have hsurf := surf_size_eq (div_round_up width blkW * bpp) (div_round_up height blkH) k
    (Nat.mul_pos (by omega) hbpp) (by omega)
  have hguard : get_addr_block_linear x y (div_round_up width blkW) bpp 0 (1 <<< k) + bpp
      ≤ round_up (div_round_up width blkW * bpp) 64
        * round_up (div_round_up height blkH) ((1 <<< k) * 8) := by
    rw [hsurf]
    exact addr_add_bpp_le _ _ bpp _ x y hbpp hdvd hbh hx hy
  exact getD_writeFold_chunk _ _ _ bpp _ data (y, x) b hb hguard hguard _ _
    (List.length_replicate _ _)
    (by
      intro c' hc' hne
      obtain ⟨hy', hx'⟩ := (mem_coordList _ _ c').mp hc'
      apply chunks_disjoint _ _ bpp _ (dvd_addr _ _ _ _ _ hdvd) (dvd_addr _ _ _ _ _ hdvd)
      intro heq
      obtain ⟨hxx, hyy⟩ := addr_inj_xy _ bpp _ c'.2 c'.1 x y hbpp hbh hx' hx heq
      exact hne (Prod.ext hyy hxx))
    (Or.inl ((mem_coordList _ _ (y, x)).mpr ⟨hy, hx⟩))

/-- After deswizzling, each logical chunk is read back from its block-linear
address. -/
theorem getD_deswizzle_slice (width height depth blkW blkH blkD : Nat) (rp : Bool)
    (bpp k : Nat) (data : List Nat) (x y b : Nat)
    (hbpp : 0 < bpp) (hdvd : bpp ∣ 16)
    (hx : x < div_round_up width blkW) (hy : y < div_round_up height blkH) (hb : b < bpp) :
    (_swizzle width height depth blkW blkH blkD rp bpp 0 k data false).getD
        ((y * div_round_up width blkW + x) * bpp + b) 0
      = data.getD
        (get_addr_block_linear x y (div_round_up width blkW) bpp 0 (1 <<< k) + b) 0 := by
  rw [deswizzle_as_writeFold]
  have hbh : 0 < 1 <<< k := shiftLeft_one_pos k
  have hsurf := surf_size_eq (div_round_up width blkW * bpp) (div_round_up height blkH) k
    (Nat.mul_pos (by omega) hbpp) (by omega)
  have hguard : get_addr_block_linear x y (div_round_up width blkW) bpp 0 (1 <<< k) + bpp
      ≤ round_up (div_round_up width blkW * bpp) 64
        * round_up (div_round_up height blkH) ((1 <<< k) * 8) := by
    rw [hsurf]
    exact addr_add_bpp_le _ _ bpp _ x y hbpp hdvd hbh hx hy
  have hfin : (y * div_round_up width blkW + x) * bpp + bpp
      ≤ round_up (div_round_up width blkW * bpp) 64
        * round_up (div_round_up height blkH) ((1 <<< k) * 8) := by
    rw [hsurf]
    have hidx : y * div_round_up width blkW + x + 1
        ≤ div_round_up width blkW * div_round_up height blkH := by
      have h1 : y * div_round_up width blkW + x + 1
          ≤ (y + 1) * div_round_up width blkW := by
        have : (y + 1) * div_round_up width blkW
            = y * div_round_up width blkW + div_round_up width blkW := by ring
        omega
      have h2 : (y + 1) * div_round_up width blkW
          ≤ div_round_up height blkH * div_round_up width blkW :=
        Nat.mul_le_mul_right _ (by omega)
      have h3 : div_round_up height blkH * div_round_up width blkW
          = div_round_up width blkW * div_round_up height blkH := Nat.mul_comm _ _
      omega
    have hsz := linear_size_le_surf (div_round_up width blkW) (div_round_up height blkH)
      bpp (1 <<< k) hbh
    have h4 : (y * div_round_up width blkW + x) * bpp + bpp
        = (y * div_round_up width blkW + x + 1) * bpp := by ring
    have h5 : (y * div_round_up width blkW + x + 1) * bpp
        ≤ div_round_up width blkW * div_round_up height blkH * bpp :=
      Nat.mul_le_mul_right _ hidx
    omega
  exact getD_writeFold_chunk _ _ _ bpp _ data (y, x) b hb hguard hfin _ _
    (List.length_replicate _ _)
    (by
      intro c' hc' hne
      obtain ⟨hy', hx'⟩ := (mem_coordList _ _ c').mp hc'
      apply chunks_disjoint _ _ bpp _
        (Dvd.intro_left _ rfl) (Dvd.intro_left _ rfl)
      intro heq
      have := Nat.eq_of_mul_eq_mul_right hbpp heq
      obtain ⟨hyy, hxx⟩ := rowmajor_inj (div_round_up width blkW) c'.1 c'.2 y x hx' hx this
      exact hne (Prod.ext hyy hxx))
    (Or.inl ((mem_coordList _ _ (y, x)).mpr ⟨hy, hx⟩))

theorem take_eq_of_getD (l1 l2 : List Nat) (n : Nat) (h1 : n ≤ l1.length) (h2 : n ≤ l2.length)
    (h : ∀ j < n, l1.getD j 0 = l2.getD j 0) : l1.take n = l2.take n := by
  apply List.ext_getElem
  · rw [List.length_take, List.length_take]
    omega
  · intro i hi1 hi2
    rw [List.length_take] at hi1
    have hi : i < n := by omega
    have hl1 : i < l1.length := by omega
    have hl2 : i < l2.length := by omega
    rw [List.getElem_take, List.getElem_take]
    have := h i hi
    rw [List.getD_eq_getElem?_getD, List.getD_eq_getElem?_getD,
      List.getElem?_eq_getElem hl1, List.getElem?_eq_getElem hl2] at this
    exact this

/-- Every linear byte index of a slice decomposes uniquely as
`((y * w + x) * bpp + b)` with `(x, y)` in the block domain. -/
theorem index_decompose (j w h bpp : Nat) (hbpp : 0 < bpp) (hj : j < w * h * bpp) :
    j / bpp / w < h ∧ (j / bpp) % w < w
      ∧ j = (j / bpp / w * w + (j / bpp) % w) * bpp + j % bpp ∧ j % bpp < bpp := by
  have hw : 0 < w := by
    rcases Nat.eq_zero_or_pos w with h0 | h0
    · rw [h0] at hj
      simp at hj
    · exact h0
  have hq : j / bpp < w * h := by
    rw [Nat.div_lt_iff_lt_mul hbpp]
    exact hj
  have hy : j / bpp / w < h := by
    rw [Nat.div_lt_iff_lt_mul hw]
    have hc : w * h = h * w := Nat.mul_comm _ _
    omega
  have hx : (j / bpp) % w < w := Nat.mod_lt _ hw
  have he1 : bpp * (j / bpp) + j % bpp = j := Nat.div_add_mod j bpp
  have he2 : w * (j / bpp / w) + (j / bpp) % w = j / bpp := Nat.div_add_mod (j / bpp) w
  refine ⟨hy, hx, ?_, Nat.mod_lt _ hbpp⟩
  have hc1 : (j / bpp / w * w + (j / bpp) % w) * bpp
      = bpp * (j / bpp / w * w + (j / bpp) % w) := Nat.mul_comm _ _
  have hc2 : j / bpp / w * w = w * (j / bpp / w) := Nat.mul_comm _ _
  have hc3 : bpp * (w * (j / bpp / w) + (j / bpp) % w) = bpp * (j / bpp) := by rw [he2]
  have hexp : bpp * (w * (j / bpp / w) + (j / bpp) % w)
      = bpp * (w * (j / bpp / w)) + bpp * ((j / bpp) % w) := by ring
  have hexp2 : bpp * (j / bpp / w * w + (j / bpp) % w)
      = bpp * (w * (j / bpp / w)) + bpp * ((j / bpp) % w) := by ring
  omega

/-- Round trip of a single 2-D slice through the block-linear transform:
the logical region of `deswizzle (swizzle data)` equals `data`. -/
theorem slice_round_trip (width height depth blkW blkH blkD : Nat) (rp : Bool)
    (bpp k : Nat) (data : List Nat) (hbpp : 0 < bpp) (hdvd : bpp ∣ 16)
    (hlen : div_round_up width blkW * div_round_up height blkH * bpp ≤ data.length) :
    (_swizzle width height depth blkW blkH blkD rp bpp 0 k
        (_swizzle width height depth blkW blkH blkD rp bpp 0 k data true) false).take
        (div_round_up width blkW * div_round_up height blkH * bpp)
      = data.take (div_round_up width blkW * div_round_up height blkH * bpp) := by
  have hbh : 0 < 1 <<< k := shiftLeft_one_pos k
  apply take_eq_of_getD
  · rw [length_swizzle]
    by_cases hpos : 0 < div_round_up width blkW ∧ 0 < div_round_up height blkH
    · rw [surf_size_eq _ _ k (Nat.mul_pos hpos.1 hbpp) hpos.2]
      exact linear_size_le_surf _ _ bpp _ hbh
    · have : div_round_up width blkW * div_round_up height blkH * bpp = 0 := by
        rcases Nat.eq_zero_or_pos (div_round_up width blkW) with h0 | h0
        · rw [h0]; ring
        · rcases Nat.eq_zero_or_pos (div_round_up height blkH) with h1 | h1
          · rw [h1]; ring
          · exact absurd ⟨h0, h1⟩ hpos
      omega
  · exact hlen
  · intro j hj
    obtain ⟨hy, hx, hrepr, hb⟩ :=
      index_decompose j (div_round_up width blkW) (div_round_up height blkH) bpp hbpp hj
    rw [hrepr]
    rw [getD_deswizzle_slice width height depth blkW blkH blkD rp bpp k _ _ _ _
      hbpp hdvd hx hy hb]
    rw [getD_swizzle_slice width height depth blkW blkH blkD rp bpp k _ _ _ _
      hbpp hdvd hx hy hb]

theorem length_swizzleSegments (blkW blkH blkD bpp : Nat) :
    ∀ (slices : List SliceDims) (d : List Nat),
    (swizzleSegments blkW blkH blkD bpp slices d).length
      = ((slices.map (slicePadded blkW blkH bpp)).sum) := by
  intro slices
  induction slices with
  | nil => intro d; rfl
  | cons s rest ih =>
    intro d
    rw [swizzleSegments, List.length_append, length_swizzle, ih, List.map_cons,
      List.sum_cons, slicePadded]

theorem segments_round_trip (blkW blkH blkD bpp : Nat) (hbpp : 0 < bpp)
    (hdvd : bpp ∣ 16) :
    ∀ (slices : List SliceDims) (d : List Nat),
    ((slices.map (sliceLin blkW blkH bpp)).sum) ≤ d.length →
    deswizzleSegments blkW blkH blkD bpp slices
        (swizzleSegments blkW blkH blkD bpp slices d)
      = d.take ((slices.map (sliceLin blkW blkH bpp)).sum) := by
  intro slices
  induction slices with
  | nil => intro d h; rfl
  | cons s rest ih =>
    intro d hlen
    rw [List.map_cons, List.sum_cons] at hlen ⊢
    rw [swizzleSegments, deswizzleSegments]
    have hL : sliceLin blkW blkH bpp s ≤ d.length := by omega
    have hLin : div_round_up s.pixW blkW * div_round_up s.pixH blkH * bpp
        = sliceLin blkW blkH bpp s := rfl
    have hsw : (_swizzle s.pixW s.pixH 1 blkW blkH blkD false bpp 0 s.bhLog2
        (d.take (sliceLin blkW blkH bpp s)) true).length
        = slicePadded blkW blkH bpp s := by
      rw [length_swizzle, slicePadded]
    have htake : ((_swizzle s.pixW s.pixH 1 blkW blkH blkD false bpp 0 s.bhLog2
          (d.take (sliceLin blkW blkH bpp s)) true)
        ++ swizzleSegments blkW blkH blkD bpp rest
            (d.drop (sliceLin blkW blkH bpp s))).take (slicePadded blkW blkH bpp s)
        = _swizzle s.pixW s.pixH 1 blkW blkH blkD false bpp 0 s.bhLog2
          (d.take (sliceLin blkW blkH bpp s)) true := by
      rw [List.take_append_of_le_length (by omega), List.take_of_length_le (by omega)]
    have hdrop : ((_swizzle s.pixW s.pixH 1 blkW blkH blkD false bpp 0 s.bhLog2
          (d.take (sliceLin blkW blkH bpp s)) true)
        ++ swizzleSegments blkW blkH blkD bpp rest
            (d.drop (sliceLin blkW blkH bpp s))).drop (slicePadded blkW blkH bpp s)
        = swizzleSegments blkW blkH blkD bpp rest
            (d.drop (sliceLin blkW blkH bpp s)) := by
      rw [List.drop_append_of_le_length (by omega)]
      rw [List.drop_of_length_le (by omega), List.nil_append]
    rw [htake, hdrop]
    have hslice := slice_round_trip s.pixW s.pixH 1 blkW blkH blkD false bpp s.bhLog2
      (d.take (sliceLin blkW blkH bpp s)) hbpp hdvd
      (by rw [List.length_take, hLin]; omega)
    rw [hLin] at hslice
    have h2 : (d.take (sliceLin blkW blkH bpp s)).take (sliceLin blkW blkH bpp s)
        = d.take (sliceLin blkW blkH bpp s) :=
      List.take_of_length_le (by rw [List.length_take]; omega)
    rw [hslice, h2]
    rw [ih (d.drop (sliceLin blkW blkH bpp s)) (by rw [List.length_drop]; omega)]
    rw [← List.take_add]

/-- Round trip of the whole surface: deswizzling the swizzled surface
returns exactly the original linear bytes. -/
theorem surface_round_trip_of_length (width height depth blkW blkH blkD bpp mips layers : Nat)
    (data : List Nat) (hbpp : 0 < bpp) (hdvd : bpp ∣ 16)
    (hlen : data.length
      = deswizzled_surface_size width height depth blkW blkH blkD bpp mips layers) :
    (swizzle_surface width height depth data blkW blkH blkD bpp mips layers).bind
        (fun t => deswizzle_surface width height depth t blkW blkH blkD bpp mips layers)
      = some data := by
  rw [swizzle_surface, if_neg (by omega)]
  simp only [Option.some_bind]
  rw [deswizzle_surface]
  have hlsw : (swizzleSegments blkW blkH blkD bpp
      (surfaceSlices width height depth blkH blkD mips layers) data).length
      = swizzled_surface_size width height depth blkW blkH blkD bpp mips layers := by
    rw [length_swizzleSegments, swizzled_surface_size]
  rw [if_neg (by omega)]
  rw [segments_round_trip blkW blkH blkD bpp hbpp hdvd _ data
    (by rw [← deswizzled_surface_size, ← hlen])]
  rw [← deswizzled_surface_size, ← hlen, List.take_length]

theorem failure_eq_none : (failure : Option Unit) = none := rfl

theorem guard_pos {p : Prop} [Decidable p] (h : p) : (guard p : Option Unit) = some () := by
  simp [guard, h]

theorem guard_neg {p : Prop} [Decidable p] (h : ¬ p) : (guard p : Option Unit) = none := by
  simp [guard, h, failure_eq_none]

theorem length_u32le (v : Nat) : (u32le v).length = 4 := rfl

theorem length_u16le (v : Nat) : (u16le v).length = 2 := rfl

/-- Reading at an offset past a prefix only sees the suffix. -/
theorem readU32_append_right (A B : List Nat) (k : Nat) :
    readU32 (A ++ B) (A.length + k) = readU32 B k := by
  unfold readU32
  rw [List.length_append]
  by_cases h : k + 4 ≤ B.length
  · rw [if_pos (by omega), if_pos h]
    rw [List.getD_append_right _ _ _ _ (by omega), List.getD_append_right _ _ _ _ (by omega),
      List.getD_append_right _ _ _ _ (by omega), List.getD_append_right _ _ _ _ (by omega)]
    have e0 : A.length + k - A.length = k := by omega
    have e1 : A.length + k + 1 - A.length = k + 1 := by omega
    have e2 : A.length + k + 2 - A.length = k + 2 := by omega
    have e3 : A.length + k + 3 - A.length = k + 3 := by omega
    rw [e0, e1, e2, e3]
  · rw [if_neg (by omega), if_neg h]

theorem readU16_append_right (A B : List Nat) (k : Nat) :
    readU16 (A ++ B) (A.length + k) = readU16 B k := by
  unfold readU16
  rw [List.length_append]
  by_cases h : k + 2 ≤ B.length
  · rw [if_pos (by omega), if_pos h]
    rw [List.getD_append_right _ _ _ _ (by omega), List.getD_append_right _ _ _ _ (by omega)]
    have e0 : A.length + k - A.length = k := by omega
    have e1 : A.length + k + 1 - A.length = k + 1 := by omega
    rw [e0, e1]
  · rw [if_neg (by omega), if_neg h]

/-- Reading back a serialized `u32` recovers the value modulo `2 ^ 32`. -/
theorem readU32_u32le (v : Nat) (rest : List Nat) :
    readU32 (u32le v ++ rest) 0 = some (v % 2 ^ 32) := by
  unfold readU32 u32le
  rw [if_pos (by simp)]
  simp only [List.cons_append, List.nil_append, List.getD_cons_zero, List.getD_cons_succ]
  congr 1
  omega

theorem readU16_u16le (v : Nat) (rest : List Nat) :
    readU16 (u16le v ++ rest) 0 = some (v % 2 ^ 16) := by
  unfold readU16 u16le
  rw [if_pos (by simp)]
  simp only [List.cons_append, List.nil_append, List.getD_cons_zero, List.getD_cons_succ]
  congr 1
  omega

/-- Reading back a run of serialized `u32` values recovers them all. -/
theorem readU32List_concat :
    ∀ (vals : List Nat) (P T : List Nat), (∀ v ∈ vals, v < 2 ^ 32) →
    readU32List (P ++ (vals.flatMap u32le ++ T)) P.length vals.length = some vals := by
  intro vals
  induction vals with
  | nil => intro P T hv; rfl
  | cons v vs ih =>
    intro P T hv
    rw [List.flatMap_cons]
    simp only [List.length_cons, readU32List]
    rw [List.append_assoc (u32le v) (vs.flatMap u32le) T]
    have h1 : readU32 (P ++ (u32le v ++ (vs.flatMap u32le ++ T))) (P.length + 0)
        = some (v % 2 ^ 32) := by
      rw [readU32_append_right, readU32_u32le]
    have hv' : v % 2 ^ 32 = v := Nat.mod_eq_of_lt (hv v (List.mem_cons_self _ _))
    rw [Nat.add_zero] at h1
    have h2 : P ++ (u32le v ++ (vs.flatMap u32le ++ T))
        = (P ++ u32le v) ++ (vs.flatMap u32le ++ T) := by
      simp [List.append_assoc]
    have h3 : P.length + 4 = (P ++ u32le v).length := by
      rw [List.length_append, length_u32le]
    rw [h1, hv', h2, h3, ih (P ++ u32le v) T (fun a ha => hv a (List.mem_cons_of_mem _ ha))]
    rfl

theorem findIdx_null_aux (rest : List Nat) :
    ∀ (name : List Nat) (i : Nat), (∀ b ∈ name, b ≠ 0) →
    List.findIdx? (fun b => b == 0) (name ++ 0 :: rest) i = some (name.length + i) := by
  intro name
  induction name with
  | nil =>
    intro i h
    simp [List.findIdx?_cons]
  | cons a as ih =>
    intro i h
    have ha : ¬ ((a == 0) = true) := by
      simp only [beq_iff_eq]
      exact h a (List.mem_cons_self _ _)
    rw [List.cons_append, List.findIdx?_cons, if_neg ha]
    rw [ih (i + 1) (fun b hb => h b (List.mem_cons_of_mem _ hb))]
    congr 1
    simp
    omega

/-- The first null in `name ++ [0] ++ rest` sits right after a null-free
`name`. -/
theorem findIdx_null (name rest : List Nat) (hname : ∀ b ∈ name, b ≠ 0) :
    (name ++ 0 :: rest).findIdx? (fun b => b == 0) = some name.length := by
  have := findIdx_null_aux rest name 0 hname
  simpa using this

theorem length_nameFieldBytes (s : List Nat) (h : s.length ≤ 63) :
    (nameFieldBytes s).length = 64 := by
  unfold nameFieldBytes
  simp
  omega

theorem fromCode_code (f : NutexbFormat) : NutexbFormat.fromCode f.code = some f := by
  cases f <;> rfl

/-- Reassociated layout of the serialized footer behind the name field. -/
theorem footerBytes_layout (f : NutexbFooter) :
    footerBytes f
      = (magicXNT ++ nameFieldBytes f.string)
        ++ (([f.width, f.height, f.depth, f.image_format.code, f.unk2,
            f.mipmap_count, f.unk3, f.layer_count, f.data_size].flatMap u32le)
          ++ (magicXET ++ (u16le f.version.1 ++ u16le f.version.2))) := by
  simp [footerBytes, List.append_assoc]

set_option maxHeartbeats 1600000 in
/-- Parsing the serialized footer of a well-formed `NutexbFooter` (name of at
most 63 null-free bytes, fields within their machine-integer ranges)
recovers it exactly. -/
theorem parseFooter_footerBytes (f : NutexbFooter)
    (hname : f.string.length ≤ 63)
    (hnull : ∀ b ∈ f.string, b ≠ 0)
    (hw : f.width < 2 ^ 32) (hh : f.height < 2 ^ 32) (hd : f.depth < 2 ^ 32)
    (hu2 : f.unk2 < 2 ^ 32) (hmc : f.mipmap_count < 2 ^ 32) (hu3 : f.unk3 < 2 ^ 32)
    (hlc : f.layer_count < 2 ^ 32) (hds : f.data_size < 2 ^ 32)
    (hv1 : f.version.1 < 2 ^ 16) (hv2 : f.version.2 < 2 ^ 16) :
    parseFooter (footerBytes f) = some f := by
  have hcode : f.image_format.code < 2 ^ 32 := by cases f.image_format <;> decide
  have hlay := footerBytes_layout f
  -- the leading magic
  have hm1 : (footerBytes f).take 4 = magicXNT := by
    rw [show footerBytes f = magicXNT ++ (nameFieldBytes f.string
      ++ (([f.width, f.height, f.depth, f.image_format.code, f.unk2,
          f.mipmap_count, f.unk3, f.layer_count, f.data_size].flatMap u32le)
        ++ (magicXET ++ (u16le f.version.1 ++ u16le f.version.2)))) by
        rw [hlay]; simp [List.append_assoc]]
    exact List.take_left' rfl
  -- the name and its terminator
  have hdrop4 : (footerBytes f).drop 4
      = f.string ++ 0 :: (List.replicate (64 - (f.string.length + 1)) 0
        ++ (([f.width, f.height, f.depth, f.image_format.code, f.unk2,
            f.mipmap_count, f.unk3, f.layer_count, f.data_size].flatMap u32le)
          ++ (magicXET ++ (u16le f.version.1 ++ u16le f.version.2)))) := by
    rw [hlay]
    rw [show (magicXNT ++ nameFieldBytes f.string)
        ++ (([f.width, f.height, f.depth, f.image_format.code, f.unk2,
            f.mipmap_count, f.unk3, f.layer_count, f.data_size].flatMap u32le)
          ++ (magicXET ++ (u16le f.version.1 ++ u16le f.version.2)))
      = magicXNT ++ (nameFieldBytes f.string
        ++ (([f.width, f.height, f.depth, f.image_format.code, f.unk2,
            f.mipmap_count, f.unk3, f.layer_count, f.data_size].flatMap u32le)
          ++ (magicXET ++ (u16le f.version.1 ++ u16le f.version.2)))) by
        simp [List.append_assoc]]
    rw [List.drop_left' (show magicXNT.length = 4 from rfl)]
    unfold nameFieldBytes
    simp [List.append_assoc]
  have hfind : ((footerBytes f).drop 4).findIdx? (fun b => b == 0)
      = some f.string.length := by
    rw [hdrop4]
    exact findIdx_null _ _ hnull
  have hnameTake : ((footerBytes f).drop 4).take f.string.length = f.string := by
    rw [hdrop4]
    rw [show f.string ++ 0 :: (List.replicate (64 - (f.string.length + 1)) 0
        ++ (([f.width, f.height, f.depth, f.image_format.code, f.unk2,
            f.mipmap_count, f.unk3, f.layer_count, f.data_size].flatMap u32le)
          ++ (magicXET ++ (u16le f.version.1 ++ u16le f.version.2))))
      = f.string ++ (0 :: (List.replicate (64 - (f.string.length + 1)) 0
        ++ (([f.width, f.height, f.depth, f.image_format.code, f.unk2,
            f.mipmap_count, f.unk3, f.layer_count, f.data_size].flatMap u32le)
          ++ (magicXET ++ (u16le f.version.1 ++ u16le f.version.2))))) from rfl]
    exact List.take_left' rfl
  -- the nine u32 fields at offset 68
  have hP68 : (magicXNT ++ nameFieldBytes f.string).length = 68 := by
    rw [List.length_append, length_nameFieldBytes _ hname]
    rfl
  have h9 := readU32List_concat
    [f.width, f.height, f.depth, f.image_format.code, f.unk2,
      f.mipmap_count, f.unk3, f.layer_count, f.data_size]
    (magicXNT ++ nameFieldBytes f.string)
    (magicXET ++ (u16le f.version.1 ++ u16le f.version.2))
    (by
      intro v hv
      simp only [List.mem_cons, List.not_mem_nil, or_false] at hv
      rcases hv with rfl | rfl | rfl | rfl | rfl | rfl | rfl | rfl | rfl <;> assumption)
  rw [hP68, ← hlay] at h9
  -- the trailing magic and version
  have hP104 : ((magicXNT ++ nameFieldBytes f.string)
      ++ ([f.width, f.height, f.depth, f.image_format.code, f.unk2,
        f.mipmap_count, f.unk3, f.layer_count, f.data_size].flatMap u32le)).length
      = 104 := by
    rw [List.length_append, hP68]
    rfl
  have hdrop104 : (footerBytes f).drop 104
      = magicXET ++ (u16le f.version.1 ++ u16le f.version.2) := by
    rw [hlay]
    rw [show (magicXNT ++ nameFieldBytes f.string)
        ++ (([f.width, f.height, f.depth, f.image_format.code, f.unk2,
            f.mipmap_count, f.unk3, f.layer_count, f.data_size].flatMap u32le)
          ++ (magicXET ++ (u16le f.version.1 ++ u16le f.version.2)))
      = ((magicXNT ++ nameFieldBytes f.string)
        ++ ([f.width, f.height, f.depth, f.image_format.code, f.unk2,
          f.mipmap_count, f.unk3, f.layer_count, f.data_size].flatMap u32le))
        ++ (magicXET ++ (u16le f.version.1 ++ u16le f.version.2)) by
        simp [List.append_assoc]]
    exact List.drop_left' hP104
  have hm2 : ((footerBytes f).drop 104).take 4 = magicXET := by
    rw [hdrop104]
    exact List.take_left' rfl
  have hv1r : readU16 (footerBytes f) 108 = some f.version.1 := by
    have hP108 : (((magicXNT ++ nameFieldBytes f.string)
        ++ ([f.width, f.height, f.depth, f.image_format.code, f.unk2,
          f.mipmap_count, f.unk3, f.layer_count, f.data_size].flatMap u32le))
        ++ magicXET).length = 108 := by
      rw [List.length_append, hP104]
      rfl
    have := readU16_append_right
      (((magicXNT ++ nameFieldBytes f.string)
        ++ ([f.width, f.height, f.depth, f.image_format.code, f.unk2,
          f.mipmap_count, f.unk3, f.layer_count, f.data_size].flatMap u32le))
        ++ magicXET)
      (u16le f.version.1 ++ u16le f.version.2) 0
    rw [hP108, Nat.add_zero] at this
    rw [show (((magicXNT ++ nameFieldBytes f.string)
        ++ ([f.width, f.height, f.depth, f.image_format.code, f.unk2,
          f.mipmap_count, f.unk3, f.layer_count, f.data_size].flatMap u32le))
        ++ magicXET) ++ (u16le f.version.1 ++ u16le f.version.2) = footerBytes f by
      rw [hlay]; simp [List.append_assoc]] at this
    rw [this, readU16_u16le, Nat.mod_eq_of_lt hv1]
  have hv2r : readU16 (footerBytes f) 110 = some f.version.2 := by
    have hP110 : ((((magicXNT ++ nameFieldBytes f.string)
        ++ ([f.width, f.height, f.depth, f.image_format.code, f.unk2,
          f.mipmap_count, f.unk3, f.layer_count, f.data_size].flatMap u32le))
        ++ magicXET) ++ u16le f.version.1).length = 110 := by
      rw [List.length_append, List.length_append, hP104]
      rfl
    have := readU16_append_right
      ((((magicXNT ++ nameFieldBytes f.string)
        ++ ([f.width, f.height, f.depth, f.image_format.code, f.unk2,
          f.mipmap_count, f.unk3, f.layer_count, f.data_size].flatMap u32le))
        ++ magicXET) ++ u16le f.version.1)
      (u16le f.version.2 ++ []) 0
    rw [hP110, Nat.add_zero] at this
    rw [show ((((magicXNT ++ nameFieldBytes f.string)
        ++ ([f.width, f.height, f.depth, f.image_format.code, f.unk2,
          f.mipmap_count, f.unk3, f.layer_count, f.data_size].flatMap u32le))
        ++ magicXET) ++ u16le f.version.1) ++ (u16le f.version.2 ++ [])
      = footerBytes f by
      rw [hlay]; simp [List.append_assoc]] at this
    rw [this, readU16_u16le, Nat.mod_eq_of_lt hv2]
  -- assemble
  unfold parseFooter
  rw [guard_pos hm1]
  have h9' : readU32List (footerBytes f) 68 9
      = some [f.width, f.height, f.depth, f.image_format.code, f.unk2,
        f.mipmap_count, f.unk3, f.layer_count, f.data_size] := by
    simpa using h9
  simp only [hfind, h9', hv1r, hv2r, guard_pos hm2, ← Option.pure_def, pure_bind,
    List.getD_cons_zero, List.getD_cons_succ, fromCode_code, hnameTake]
  rfl

theorem length_footerBytes (f : NutexbFooter) (h : f.string.length ≤ 63) :
    (footerBytes f).length = 112 := by
  unfold footerBytes
  simp [List.length_append, length_nameFieldBytes _ h, u32le, u16le, magicXNT, magicXET]

theorem length_flatMap_u32le (l : List Nat) : (l.flatMap u32le).length = 4 * l.length := by
  induction l with
  | nil => rfl
  | cons v vs ih =>
    rw [List.flatMap_cons, List.length_append, ih, length_u32le, List.length_cons]
    ring

theorem length_layerMipmapsBytes (t : LayerMipmaps) (h : t.mipmap_sizes.length ≤ 16) :
    (layerMipmapsBytes t).length = 64 := by
  unfold layerMipmapsBytes
  rw [List.length_append, List.length_replicate, length_flatMap_u32le]
  omega

theorem length_tablesBytes (ts : List LayerMipmaps)
    (h : ∀ t ∈ ts, t.mipmap_sizes.length ≤ 16) :
    (ts.flatMap layerMipmapsBytes).length = 64 * ts.length := by
  induction ts with
  | nil => rfl
  | cons t ts ih =>
    rw [List.flatMap_cons, List.length_append,
      length_layerMipmapsBytes t (h t (List.mem_cons_self _ _)),
      ih (fun a ha => h a (List.mem_cons_of_mem _ ha)), List.length_cons]
    ring

/-- Parsing the serialized per-layer mip tables recovers them exactly. -/
theorem parseTables_concat :
    ∀ (ts : List LayerMipmaps) (P T : List Nat) (mips : Nat),
    (∀ t ∈ ts, t.mipmap_sizes.length = mips) →
    (∀ t ∈ ts, ∀ v ∈ t.mipmap_sizes, v < 2 ^ 32) →
    mips ≤ 16 →
    parseTables (P ++ (ts.flatMap layerMipmapsBytes ++ T)) mips ts.length P.length
      = some ts := by
  intro ts
  induction ts with
  | nil => intro P T mips h1 h2 h3; rfl
  | cons t ts ih =>
    intro P T mips h1 h2 h3
    simp only [List.length_cons, parseTables]
    have hmt : t.mipmap_sizes.length = mips := h1 t (List.mem_cons_self _ _)
    have hshape : P ++ ((t :: ts).flatMap layerMipmapsBytes ++ T)
        = P ++ (t.mipmap_sizes.flatMap u32le
          ++ ((List.replicate (64 - 4 * t.mipmap_sizes.length) 0)
            ++ (ts.flatMap layerMipmapsBytes ++ T))) := by
      rw [List.flatMap_cons]
      unfold layerMipmapsBytes
      simp [List.append_assoc]
    have hread : readU32List (P ++ (t.mipmap_sizes.flatMap u32le
        ++ ((List.replicate (64 - 4 * t.mipmap_sizes.length) 0)
          ++ (ts.flatMap layerMipmapsBytes ++ T)))) P.length mips
        = some t.mipmap_sizes := by
      rw [← hmt]
      exact readU32List_concat t.mipmap_sizes P
        ((List.replicate (64 - 4 * t.mipmap_sizes.length) 0)
          ++ (ts.flatMap layerMipmapsBytes ++ T))
        (h2 t (List.mem_cons_self _ _))
    rw [hshape]
    have hnext : P ++ (t.mipmap_sizes.flatMap u32le
        ++ ((List.replicate (64 - 4 * t.mipmap_sizes.length) 0)
          ++ (ts.flatMap layerMipmapsBytes ++ T)))
        = (P ++ layerMipmapsBytes t) ++ (ts.flatMap layerMipmapsBytes ++ T) := by
      unfold layerMipmapsBytes
      simp [List.append_assoc]
    have hlen64 : P.length + 64 = (P ++ layerMipmapsBytes t).length := by
      rw [List.length_append, length_layerMipmapsBytes t (by omega)]
    have hrest := ih (P ++ layerMipmapsBytes t) T mips
      (fun a ha => h1 a (List.mem_cons_of_mem _ ha))
      (fun a ha => h2 a (List.mem_cons_of_mem _ ha)) h3
    rw [← hnext] at hrest
    simp only [hread, ← Option.pure_def, pure_bind, hlen64, hrest]

/-- Serializing a well-formed `NutexbFile` and parsing the bytes back yields
the identical file.  Well-formedness: the name fits the 64-byte field and
has no interior nulls, the table count matches `layer_count`, each table
has exactly `mipmap_count` sizes, `mipmap_count ≤ 16` so a table fits its
64-byte record, and every numeric field fits its machine-integer width. -/
theorem parseNutexb_writeNutexb (f : NutexbFile)
    (hname : f.footer.string.length ≤ 63)
    (hnull : ∀ b ∈ f.footer.string, b ≠ 0)
    (hw : f.footer.width < 2 ^ 32) (hh : f.footer.height < 2 ^ 32)
    (hd : f.footer.depth < 2 ^ 32) (hu2 : f.footer.unk2 < 2 ^ 32)
    (hu3 : f.footer.unk3 < 2 ^ 32) (hmc : f.footer.mipmap_count ≤ 16)
    (hds : f.footer.data_size < 2 ^ 32) (hlc : f.footer.layer_count < 2 ^ 32)
    (hv1 : f.footer.version.1 < 2 ^ 16) (hv2 : f.footer.version.2 < 2 ^ 16)
    (htc : f.layer_mipmaps.length = f.footer.layer_count)
    (hts : ∀ t ∈ f.layer_mipmaps, t.mipmap_sizes.length = f.footer.mipmap_count)
    (htv : ∀ t ∈ f.layer_mipmaps, ∀ v ∈ t.mipmap_sizes, v < 2 ^ 32) :
    parseNutexb (writeNutexb f) = some f := by
  have hFB : (footerBytes f.footer).length = 112 := length_footerBytes _ hname
  have hTB : (f.layer_mipmaps.flatMap layerMipmapsBytes).length
      = 64 * f.footer.layer_count := by
    rw [length_tablesBytes _ (fun t ht => by rw [hts t ht]; exact hmc), htc]
  have hws : writeNutexb f
      = (f.data ++ f.layer_mipmaps.flatMap layerMipmapsBytes) ++ footerBytes f.footer := by
    unfold writeNutexb
    simp [List.append_assoc]
  have hslen : (writeNutexb f).length
      = f.data.length + 64 * f.footer.layer_count + 112 := by
    rw [hws, List.length_append, List.length_append, hTB, hFB]
  have hdropF : (writeNutexb f).drop ((writeNutexb f).length - 112)
      = footerBytes f.footer := by
    rw [hws]
    apply List.drop_left'
    rw [List.length_append, hTB]
    rw [hws] at hslen
    omega
  have hfoot : parseFooter ((writeNutexb f).drop ((writeNutexb f).length - 112))
      = some f.footer := by
    rw [hdropF]
    exact parseFooter_footerBytes f.footer hname hnull hw hh hd hu2 (by omega) hu3
      hlc hds hv1 hv2
  have hdatalen : (writeNutexb f).length - 112 - 64 * f.footer.layer_count
      = f.data.length := by
    omega
  have hdropT : (writeNutexb f).drop
      ((writeNutexb f).length - 112 - 64 * f.footer.layer_count)
      = f.layer_mipmaps.flatMap layerMipmapsBytes ++ footerBytes f.footer := by
    rw [hdatalen]
    unfold writeNutexb
    rw [List.append_assoc]
    exact List.drop_left' rfl
  have htabs : parseTables ((writeNutexb f).drop
      ((writeNutexb f).length - 112 - 64 * f.footer.layer_count))
      f.footer.mipmap_count f.footer.layer_count 0
      = some f.layer_mipmaps := by
    rw [hdropT]
    have := parseTables_concat f.layer_mipmaps [] (footerBytes f.footer)
      f.footer.mipmap_count hts htv hmc
    rw [htc] at this
    simpa using this
  have htake : (writeNutexb f).take
      ((writeNutexb f).length - 112 - 64 * f.footer.layer_count) = f.data := by
    rw [hdatalen]
    unfold writeNutexb
    rw [List.append_assoc]
    exact List.take_left' rfl
  unfold parseNutexb
  rw [if_neg (by omega)]
  simp only [hfoot]
  rw [if_neg (by omega)]
  simp only [htabs, htake]

theorem bytes_per_pixel_pos (f : NutexbFormat) : 0 < f.bytes_per_pixel := by
  cases f <;> decide

theorem bytes_per_pixel_dvd_16 (f : NutexbFormat) : f.bytes_per_pixel ∣ 16 := by
  cases f <;> decide

theorem length_swizzle_surface (width height depth blkW blkH blkD bpp mips layers : Nat)
    (data out : List Nat)
    (h : swizzle_surface width height depth data blkW blkH blkD bpp mips layers = some out) :
    out.length = swizzled_surface_size width height depth blkW blkH blkD bpp mips layers := by
  unfold swizzle_surface at h
  split at h
  · cases h
  · injection h with h
    rw [← h, length_swizzleSegments, swizzled_surface_size]

theorem getD_replicate {α : Type} (n i : Nat) (a d : α) (h : i < n) :
    (List.replicate n a).getD i d = a := by
  rw [List.getD_eq_getElem?_getD, List.getElem?_replicate, if_pos h]
  rfl

theorem getD_map_range (g : Nat → Nat) (n i : Nat) (h : i < n) :
    ((List.range n).map g).getD i 0 = g i := by
  rw [List.getD_eq_getElem?_getD, List.getElem?_map, List.getElem?_range h]
  rfl

theorem length_listResize (l : List Nat) (n : Nat) : (listResize l n).length = n := by
  unfold listResize
  rw [List.length_append, List.length_take, List.length_replicate]
  omega

/-- C5: for every block coordinate `(x, y)`, width in block units, bytes per
unit and block height, the block-linear address function returns exactly
`gob_index + within_gob` as given by the documented Tegra formula, with
`width_in_gobs = ceil(width * bpp / 64)`. -/
theorem c5_address_formula (x y width bpp block_height : Nat) :
    get_addr_block_linear x y width bpp 0 block_height
      = (y / (8 * block_height)) * div_round_up (width * bpp) 64 * block_height * 512
        + (x * bpp / 64) * block_height * 512
        + (y % (8 * block_height) / 8) * 512
        + (x * bpp % 64 / 32) * 256
        + (y % 8 / 2) * 64
        + (x * bpp % 32 / 16) * 32
        + (y % 2) * 16
        + x * bpp % 16 := by
  unfold get_addr_block_linear
  ring

/-- C4: each computed mip byte size equals
`max(max(ceil((w >> m) / bw), 1) * max(ceil((h >> m) / bh), 1) *
max(ceil((d >> m) / bd), 1) * bpp, bpp)`; the table has `mip_count` entries
and is replicated identically for each of the `layer_count` layers. -/
theorem c4_mip_size_formula (width height depth : Nat) (fmt : NutexbFormat)
    (mip_count layer_count m l : Nat) (hm : m < mip_count) (hl : l < layer_count)
    (hfit : max (max (div_round_up (width >>> m) fmt.block_width) 1
        * max (div_round_up (height >>> m) fmt.block_height) 1
        * max (div_round_up (depth >>> m) fmt.block_depth) 1
        * fmt.bytes_per_pixel) fmt.bytes_per_pixel < 2 ^ 32) :
    (calculate_layer_mip_sizes width height depth fmt.block_width fmt.block_height
        fmt.block_depth fmt.bytes_per_pixel mip_count layer_count).length = layer_count
    ∧ (∀ t ∈ calculate_layer_mip_sizes width height depth fmt.block_width
        fmt.block_height fmt.block_depth fmt.bytes_per_pixel mip_count layer_count,
        t.mipmap_sizes.length = mip_count
        ∧ t = (calculate_layer_mip_sizes width height depth fmt.block_width
            fmt.block_height fmt.block_depth fmt.bytes_per_pixel mip_count
            layer_count).getD 0 ⟨[]⟩)
    ∧ ((calculate_layer_mip_sizes width height depth fmt.block_width fmt.block_height
        fmt.block_depth fmt.bytes_per_pixel mip_count layer_count).getD l
          ⟨[]⟩).mipmap_sizes.getD m 0
      = max (max (div_round_up (width >>> m) fmt.block_width) 1
          * max (div_round_up (height >>> m) fmt.block_height) 1
          * max (div_round_up (depth >>> m) fmt.block_depth) 1
          * fmt.bytes_per_pixel) fmt.bytes_per_pixel := by
  unfold calculate_layer_mip_sizes
  refine ⟨List.length_replicate _ _, ?_, ?_⟩
  · intro t ht
    have := List.eq_of_mem_replicate ht
    subst this
    constructor
    · rw [List.length_map, List.length_range]
    · rw [getD_replicate _ _ _ _ (by omega)]
  · rw [getD_replicate _ _ _ _ hl]
    rw [getD_map_range _ _ _ hm]
    exact Nat.mod_eq_of_lt hfit

/-- C4 witness at a concrete surface. -/
theorem c4_witness :
    (calculate_layer_mip_sizes 1 1 1 NutexbFormat.R8Unorm.block_width
        NutexbFormat.R8Unorm.block_height NutexbFormat.R8Unorm.block_depth
        NutexbFormat.R8Unorm.bytes_per_pixel 1 1).length = 1
    ∧ ((calculate_layer_mip_sizes 1 1 1 NutexbFormat.R8Unorm.block_width
        NutexbFormat.R8Unorm.block_height NutexbFormat.R8Unorm.block_depth
        NutexbFormat.R8Unorm.bytes_per_pixel 1 1).getD 0 ⟨[]⟩).mipmap_sizes.getD 0 0
      = max (max (div_round_up (1 >>> 0) NutexbFormat.R8Unorm.block_width) 1
          * max (div_round_up (1 >>> 0) NutexbFormat.R8Unorm.block_height) 1
          * max (div_round_up (1 >>> 0) NutexbFormat.R8Unorm.block_depth) 1
          * NutexbFormat.R8Unorm.bytes_per_pixel) NutexbFormat.R8Unorm.bytes_per_pixel := by
  have h := c4_mip_size_formula 1 1 1 NutexbFormat.R8Unorm 1 1 0 0
    (by decide) (by decide) (by decide)
  exact ⟨h.1, h.2.2⟩

/-- C1: for every surface whose format is in the catalog and a linear buffer
of exactly the implied logical size, deswizzling the swizzled buffer
reproduces the original linear bytes over the whole logical region (proved
for all dimensions, depths, mip and layer counts, which covers the claim's
finite parameter sets). -/
theorem c1_swizzle_round_trip (fmt : NutexbFormat)
    (width height depth mip_count layer_count : Nat) (linear_bytes : List Nat)
    (hlen : linear_bytes.length = deswizzled_surface_size width height depth
      fmt.block_width fmt.block_height fmt.block_depth fmt.bytes_per_pixel
      mip_count layer_count) :
    (swizzle_surface width height depth linear_bytes fmt.block_width
        fmt.block_height fmt.block_depth fmt.bytes_per_pixel mip_count
        layer_count).bind
      (fun tiled => deswizzle_surface width height depth tiled fmt.block_width
        fmt.block_height fmt.block_depth fmt.bytes_per_pixel mip_count
        layer_count)
      = some linear_bytes :=
  surface_round_trip_of_length width height depth fmt.block_width fmt.block_height
    fmt.block_depth fmt.bytes_per_pixel mip_count layer_count linear_bytes
    (bytes_per_pixel_pos fmt) (bytes_per_pixel_dvd_16 fmt) hlen

/-- C1 witness at a concrete surface. -/
theorem c1_witness :
    (swizzle_surface 1 1 1 [7] NutexbFormat.R8Unorm.block_width
        NutexbFormat.R8Unorm.block_height NutexbFormat.R8Unorm.block_depth
        NutexbFormat.R8Unorm.bytes_per_pixel 1 1).bind
      (fun tiled => deswizzle_surface 1 1 1 tiled NutexbFormat.R8Unorm.block_width
        NutexbFormat.R8Unorm.block_height NutexbFormat.R8Unorm.block_depth
        NutexbFormat.R8Unorm.bytes_per_pixel 1 1)
      = some [7] :=
  c1_swizzle_round_trip .R8Unorm 1 1 1 1 1 [7] (by decide)

/-- C7: every footer produced by the swizzling encode path has
`data_size = data.len()`, the tiled sentinel `0x1000`, the fixed version
`(1, 2)`, the surface's dimensions, format and counts, and the
depth/layer-count flag heuristic. -/
theorem c7_create_footer (image : Surface) (name : List Nat) (f : NutexbFile)
    (h : create_nutexb image name = some f)
    (hfit : swizzled_surface_size image.width image.height image.depth
      image.image_format.block_width image.image_format.block_height
      image.image_format.block_depth image.image_format.bytes_per_pixel
      image.mipmap_count image.layer_count < 2 ^ 32) :
    f.footer.data_size = f.data.length
    ∧ f.footer.unk3 = 0x1000
    ∧ f.footer.version = (1, 2)
    ∧ f.footer.string = name
    ∧ f.footer.width = image.width
    ∧ f.footer.height = image.height
    ∧ f.footer.depth = image.depth
    ∧ f.footer.image_format = image.image_format
    ∧ f.footer.mipmap_count = image.mipmap_count
    ∧ f.footer.layer_count = image.layer_count
    ∧ f.footer.unk2 = (if image.depth > 1 then 8
        else if image.layer_count > 1 then 9 else 4) := by
  unfold create_nutexb at h
  split at h
  · cases h
  · rename_i data hsw
    injection h with h
    subst h
    have hdl : data.length = swizzled_surface_size image.width image.height
        image.depth image.image_format.block_width image.image_format.block_height
        image.image_format.block_depth image.image_format.bytes_per_pixel
        image.mipmap_count image.layer_count :=
      length_swizzle_surface _ _ _ _ _ _ _ _ _ _ _ hsw
    refine ⟨?_, rfl, rfl, rfl, rfl, rfl, rfl, rfl, rfl, rfl, rfl⟩
    show data.length % 2 ^ 32 = data.length
    rw [hdl]
    exact Nat.mod_eq_of_lt hfit

set_option maxRecDepth 100000 in
/-- C7 witness at a concrete surface. -/
theorem c7_witness :
    ((create_nutexb sampleSurface [97]).getD sampleFile).footer.data_size
        = ((create_nutexb sampleSurface [97]).getD sampleFile).data.length
    ∧ ((create_nutexb sampleSurface [97]).getD sampleFile).footer.unk3 = 0x1000
    ∧ ((create_nutexb sampleSurface [97]).getD sampleFile).footer.version = (1, 2) := by
  have h := c7_create_footer sampleSurface [97]
    ((create_nutexb sampleSurface [97]).getD sampleFile) (by decide) (by decide)
  exact ⟨h.1, h.2.1, h.2.2.1⟩

/-- C10: the unswizzled encode path always writes version `(2, 0)` and flag
value `2`, while the swizzling path always writes version `(1, 2)`, so the
two paths produce distinguishable footers. -/
theorem c10_encode_paths_distinguishable (image : Surface) (name : List Nat) :
    (create_nutexb_unswizzled image name).footer.version = (2, 0)
    ∧ (create_nutexb_unswizzled image name).footer.unk2 = 2
    ∧ (create_nutexb_unswizzled image name).footer.mipmap_count = 1
    ∧ ∀ f, create_nutexb image name = some f →
        f.footer.version = (1, 2)
        ∧ f.footer.version ≠ (create_nutexb_unswizzled image name).footer.version := by
  refine ⟨rfl, rfl, rfl, ?_⟩
  intro f h
  unfold create_nutexb at h
  split at h
  · cases h
  · injection h with h
    subst h
    refine ⟨rfl, ?_⟩
    show ((1, 2) : Nat × Nat) ≠ (2, 0)
    decide

set_option maxRecDepth 100000 in
/-- C10 witness at a concrete surface. -/
theorem c10_witness :
    (create_nutexb_unswizzled sampleSurface [97]).footer.version = (2, 0)
    ∧ ((create_nutexb sampleSurface [97]).getD sampleFile).footer.version = (1, 2) := by
  have h := c10_encode_paths_distinguishable sampleSurface [97]
  exact ⟨h.1, (h.2.2.2 ((create_nutexb sampleSurface [97]).getD sampleFile)
    (by decide)).1⟩

/-- C8: `optimize_size` resizes `data` to the expected length recomputed
from the footer (tiled size when the swizzle flag is `0x1000`, linear size
otherwise), updates `data_size` to that length, preserves the leading bytes
and zero-fills any extension, and changes nothing else. -/
theorem c8_optimize_size (f : NutexbFile) (hfit : expected_size f.footer < 2 ^ 32) :
    f.optimize_size.data.length = expected_size f.footer
    ∧ expected_size f.footer
      = (if f.footer.unk3 = 0x1000 then
          swizzled_surface_size f.footer.width f.footer.height f.footer.depth
            f.footer.image_format.block_width f.footer.image_format.block_height
            f.footer.image_format.block_depth f.footer.image_format.bytes_per_pixel
            f.footer.mipmap_count f.footer.layer_count
        else
          deswizzled_surface_size f.footer.width f.footer.height f.footer.depth
            f.footer.image_format.block_width f.footer.image_format.block_height
            f.footer.image_format.block_depth f.footer.image_format.bytes_per_pixel
            f.footer.mipmap_count f.footer.layer_count)
    ∧ f.optimize_size.footer.data_size = expected_size f.footer
    ∧ f.optimize_size.data
      = f.data.take (expected_size f.footer)
        ++ List.replicate (expected_size f.footer - f.data.length) 0
    ∧ f.optimize_size.footer = { f.footer with data_size := expected_size f.footer }
    ∧ f.optimize_size.layer_mipmaps = f.layer_mipmaps := by
  refine ⟨length_listResize _ _, rfl, ?_, rfl, ?_, rfl⟩
  · show (listResize f.data (expected_size f.footer)).length % 2 ^ 32
      = expected_size f.footer
    rw [length_listResize]
    exact Nat.mod_eq_of_lt hfit
  · show { f.footer with
        data_size := (listResize f.data (expected_size f.footer)).length % 2 ^ 32 }
      = { f.footer with data_size := expected_size f.footer }
    rw [length_listResize, Nat.mod_eq_of_lt hfit]

/-- C8 witness at a concrete file. -/
theorem c8_witness :
    sampleFile.optimize_size.data.length = expected_size sampleFile.footer
    ∧ sampleFile.optimize_size.footer.data_size = expected_size sampleFile.footer
    ∧ sampleFile.optimize_size.layer_mipmaps = sampleFile.layer_mipmaps := by
  have h := c8_optimize_size sampleFile (by decide)
  exact ⟨h.1, h.2.2.1, h.2.2.2.2.2⟩

/-- C2: on any successful read, the `data` field has exactly
`stream length - 112 - 64 * layer_count` bytes; the footer's `data_size`
plays no part in the computation. -/
theorem c2_read_data_length (s : List Nat) (f : NutexbFile)
    (h : parseNutexb s = some f) :
    f.data.length = s.length - 112 - 64 * f.footer.layer_count := by
  unfold parseNutexb at h
  split at h
  · cases h
  · split at h
    · cases h
    · rename_i footer hfoot
      split at h
      · cases h
      · rename_i hsize
        split at h
        · cases h
        · rename_i tables htab
          injection h with h
          subst h
          simp only [List.length_take]
          omega

set_option maxRecDepth 100000 in
/-- C2 witness at a concrete stream. -/
theorem c2_witness :
    sampleFile.data.length
      = (writeNutexb sampleFile).length - 112 - 64 * sampleFile.footer.layer_count :=
  c2_read_data_length (writeNutexb sampleFile) sampleFile (by decide)

theorem parseFooter_none_magic1 (t : List Nat) (h : t.take 4 ≠ magicXNT) :
    parseFooter t = none := by
  unfold parseFooter
  rw [guard_neg h]
  rfl

theorem parseFooter_none_magic2 (t : List Nat) (h : (t.drop 104).take 4 ≠ magicXET) :
    parseFooter t = none := by
  unfold parseFooter
  by_cases h1 : t.take 4 = magicXNT
  · rw [guard_pos h1]
    cases hfi : (t.drop 4).findIdx? (fun b => b == 0) with
    | none => simp only [hfi]; rfl
    | some i =>
      simp only [hfi, ← Option.pure_def, pure_bind]
      cases hr : readU32List t 68 9 with
      | none => rfl
      | some vals =>
        simp only [hr, ← Option.pure_def, pure_bind]
        cases hf : NutexbFormat.fromCode (vals.getD 3 0) with
        | none => rfl
        | some fmt =>
          simp only [hf, ← Option.pure_def, pure_bind, guard_neg h]
          rfl
  · rw [guard_neg h1]
    rfl

/-- C6: malformed input never crashes the reader: a stream shorter than the
112-byte footer, a missing `" XNT"` or `" XET"` magic, or a stream shorter
than the minimum footer-plus-table size implied by `layer_count` all make
`NutexbFile::read` return an error value. -/
theorem c6_malformed_input_errors :
    (∀ s : List Nat, s.length < 112 → parseNutexb s = none)
    ∧ (∀ s : List Nat, 112 ≤ s.length →
        (s.drop (s.length - 112)).take 4 ≠ magicXNT → parseNutexb s = none)
    ∧ (∀ s : List Nat, 112 ≤ s.length →
        ((s.drop (s.length - 112)).drop 104).take 4 ≠ magicXET →
        parseNutexb s = none)
    ∧ (∀ (s : List Nat) (ft : NutexbFooter),
        parseFooter (s.drop (s.length - 112)) = some ft →
        s.length < 112 + 64 * ft.layer_count → parseNutexb s = none) := by
  refine ⟨?_, ?_, ?_, ?_⟩
  · intro s h
    unfold parseNutexb
    rw [if_pos h]
  · intro s h hm
    unfold parseNutexb
    rw [if_neg (by omega), parseFooter_none_magic1 _ hm]
  · intro s h hm
    unfold parseNutexb
    rw [if_neg (by omega), parseFooter_none_magic2 _ hm]
  · intro s ft hfoot hlt
    unfold parseNutexb
    by_cases h112 : s.length < 112
    · rw [if_pos h112]
    · rw [if_neg h112]
      simp only [hfoot]
      rw [if_pos hlt]

/-- C6 witness at concrete malformed streams. -/
theorem c6_witness :
    parseNutexb [] = none ∧ parseNutexb (List.replicate 112 7) = none :=
  ⟨c6_malformed_input_errors.1 [] (by decide),
    c6_malformed_input_errors.2.1 (List.replicate 112 7) (by decide) (by decide)⟩

set_option maxRecDepth 400000 in
/-- C3 counterexample: a surface accepted by the encode path with the 3-byte
name `[97, 0, 98]` (an interior null) serializes and decodes to a file whose
name is `[97]`, not the original, because the null-terminated name field
cuts the name at its first null byte. -/
theorem c3_counterexample :
    ((create_nutexb sampleSurface [97, 0, 98]).bind
        (fun f => parseNutexb (writeNutexb f))).map (fun g => g.footer.string)
      ≠ some [97, 0, 98] := by
  decide

/-- C3 (amended): serializing the encode path's output and decoding the
bytes yields the identical `NutexbFile` — data, tables and all footer
fields — provided the name has at most 63 bytes and, additionally, no
interior null bytes (the counterexample shows an interior null breaks the
name round trip), and `mip_count ≤ 16`.  The `< 2 ^ 32` bounds encode the
Rust `u32` field types of `Surface`. -/
theorem c3_container_round_trip (image : Surface) (name : List Nat) (f : NutexbFile)
    (hcreate : create_nutexb image name = some f)
    (hname : name.length ≤ 63)
    (hnull : ∀ b ∈ name, b ≠ 0)
    (hmips : image.mipmap_count ≤ 16)
    (hw : image.width < 2 ^ 32) (hh : image.height < 2 ^ 32)
    (hd : image.depth < 2 ^ 32) (hlc : image.layer_count < 2 ^ 32) :
    parseNutexb (writeNutexb f) = some f := by
  unfold create_nutexb at hcreate
  split at hcreate
  · cases hcreate
  · rename_i data hsw
    injection hcreate with hcreate
    subst hcreate
    apply parseNutexb_writeNutexb
    · exact hname
    · exact hnull
    · exact hw
    · exact hh
    · exact hd
    · show unk2 image.depth image.layer_count < 2 ^ 32
      unfold unk2
      split
      · decide
      · split <;> decide
    · show (4096 : Nat) < 2 ^ 32
      decide
    · exact hmips
    · show data.length % 2 ^ 32 < 2 ^ 32
      exact Nat.mod_lt _ (by decide)
    · exact hlc
    · show (1 : Nat) < 2 ^ 16
      decide
    · show (2 : Nat) < 2 ^ 16
      decide
    · show (calculate_layer_mip_sizes image.width image.height image.depth
        image.image_format.block_width image.image_format.block_height
        image.image_format.block_depth image.image_format.bytes_per_pixel
        image.mipmap_count image.layer_count).length = image.layer_count
      unfold calculate_layer_mip_sizes
      exact List.length_replicate _ _
    · intro t ht
      have := List.eq_of_mem_replicate ht
      subst this
      show (List.map _ (List.range image.mipmap_count)).length = image.mipmap_count
      rw [List.length_map, List.length_range]
    · intro t ht v hv
      have := List.eq_of_mem_replicate ht
      subst this
      simp only [List.mem_map] at hv
      obtain ⟨mip, _, rfl⟩ := hv
      exact Nat.mod_lt _ (by decide)

set_option maxRecDepth 400000 in
/-- C3 witness at a concrete surface. -/
theorem c3_witness :
    parseNutexb (writeNutexb ((create_nutexb sampleSurface [97]).getD sampleFile))
      = some ((create_nutexb sampleSurface [97]).getD sampleFile) :=
  c3_container_round_trip sampleSurface [97] _ (by decide) (by decide) (by decide)
    (by decide) (by decide) (by decide) (by decide) (by decide)

set_option maxRecDepth 400000 in
/-- C9 counterexample: writing a footer whose name has 67 bytes and begins
with `" XNT"` and reading the bytes back SUCCEEDS, returning a name equal
to the original minus its first four bytes — neither a clean truncation of
the original name nor an error, and a corrupted footer. -/
theorem c9_counterexample :
    (parseNutexb (writeNutexb longNameFile)).map (fun g => g.footer.string)
        = some (List.replicate 63 97)
    ∧ some (List.replicate 63 97)
        ≠ some ((longNameFile.footer.string : List Nat).take 63)
    ∧ some (List.replicate 63 97) ≠ some (longNameFile.footer.string : List Nat) := by
  refine ⟨by decide, by decide, by decide⟩

/-- C9 (amended): a name of exactly 63 null-free bytes round-trips exactly
through write and read on any otherwise well-formed file; for a name of 64
bytes or more the serialized name field overflows its fixed 64 bytes, and
reading back is not guaranteed to yield a truncation or an error — it can
succeed with a different name (see the counterexample). -/
theorem c9_name63_round_trip (f : NutexbFile)
    (hname : f.footer.string.length = 63)
    (hnull : ∀ b ∈ f.footer.string, b ≠ 0)
    (hw : f.footer.width < 2 ^ 32) (hh : f.footer.height < 2 ^ 32)
    (hd : f.footer.depth < 2 ^ 32) (hu2 : f.footer.unk2 < 2 ^ 32)
    (hu3 : f.footer.unk3 < 2 ^ 32) (hmc : f.footer.mipmap_count ≤ 16)
    (hds : f.footer.data_size < 2 ^ 32) (hlc : f.footer.layer_count < 2 ^ 32)
    (hv1 : f.footer.version.1 < 2 ^ 16) (hv2 : f.footer.version.2 < 2 ^ 16)
    (htc : f.layer_mipmaps.length = f.footer.layer_count)
    (hts : ∀ t ∈ f.layer_mipmaps, t.mipmap_sizes.length = f.footer.mipmap_count)
    (htv : ∀ t ∈ f.layer_mipmaps, ∀ v ∈ t.mipmap_sizes, v < 2 ^ 32) :
    (parseNutexb (writeNutexb f)).map (fun g => g.footer.string)
      = some f.footer.string := by
  rw [parseNutexb_writeNutexb f (by omega) hnull hw hh hd hu2 hu3 hmc hds hlc
    hv1 hv2 htc hts htv]
  rfl

set_option maxRecDepth 400000 in
/-- C9 witness at a concrete file. -/
theorem c9_witness :
    (parseNutexb (writeNutexb name63File)).map (fun g => g.footer.string)
      = some name63File.footer.string :=
  c9_name63_round_trip name63File (by decide) (by decide) (by decide) (by decide)
    (by decide) (by decide) (by decide) (by decide) (by decide) (by decide)
    (by decide) (by decide) (by decide) (by decide) (by decide)

end Nutexb
